import Mathlib

/-!
Shallow embedding of the `rip_str` editable string buffer
(`src/splitter.rs`, `src/segment.rs`, `src/lib.rs`).

Modelling conventions:
* A Rust `&str`/`String` is the list of its Unicode scalar values (`List Char`).
* An `Ascii` run's byte vector is modelled as the list of its (ASCII)
  characters; every byte stored there comes from an ASCII-only grapheme, so
  element counts coincide with Rust byte counts.
* Grapheme breaking comes from the external `seshat` library; it is a
  parameter `gb : List Char → List (List Char)` whose consumed contract
  (successive clusters concatenate back to the input) is `GbContract`.
* Rust panics (`expect`, out-of-bounds `Vec` indexing) are modelled by
  `Option`, `none` meaning the call panics.
* `usize` subtraction is modelled by truncated `Nat` subtraction; the
  no-underflow claim is proved separately.
-/

def MAX_BLOCK_SIZE : Nat := 1024

def MIN_BLOCK_SIZE : Nat := 512

/-- Byte length of a string, `str::len` in Rust. -/
def utf8Len (cs : List Char) : Nat := (cs.map Char.utf8Size).sum

/-- `u8::is_ascii` / `str::is_ascii` on a single scalar. -/
def isAsciiChar (c : Char) : Bool := decide (c.toNat < 128)

/-- `str::is_ascii` for a grapheme cluster. -/
def isAsciiCluster (g : List Char) : Bool := g.all isAsciiChar

/-- `u8::is_ascii_alphabetic`. -/
def isAsciiAlpha (c : Char) : Bool :=
  decide (65 ≤ c.toNat ∧ c.toNat ≤ 90) || decide (97 ≤ c.toNat ∧ c.toNat ≤ 122)

/-- `SegmentType` from segment.rs: `Ascii(Vec<u8>) | Utf8(Vec<char>) | Unicode(Vec<String>)`. -/
inductive SegmentType where
  | ascii : List Char → SegmentType
  | utf8 : List Char → SegmentType
  | unicode : List (List Char) → SegmentType
deriving DecidableEq, Repr

/-- `SegmentType::len`: number of logical elements. -/
def SegmentType.len : SegmentType → Nat
  | .ascii v => v.length
  | .utf8 v => v.length
  | .unicode v => v.length

/-- `SegmentType::is_empty`. -/
def SegmentType.isEmpty (t : SegmentType) : Bool := t.len == 0

/-- The logical elements of a run: one `List Char` per element
(single characters for `Ascii`/`Utf8`, whole clusters for `Unicode`). -/
def SegmentType.elems : SegmentType → List (List Char)
  | .ascii v => v.map (fun c => [c])
  | .utf8 v => v.map (fun c => [c])
  | .unicode v => v

/-- `Display for SegmentType`: the characters the run renders to. -/
def SegmentType.render : SegmentType → List Char
  | .ascii v => v
  | .utf8 v => v
  | .unicode v => v.flatten

/-- `SegmentType::split(at)`: Rust mutates `self` to the prefix and returns the
suffix; we return the pair `(prefix, suffix)`. -/
def SegmentType.split : SegmentType → Nat → SegmentType × SegmentType
  | .ascii v, n => (.ascii (v.take n), .ascii (v.drop n))
  | .utf8 v, n => (.utf8 (v.take n), .utf8 (v.drop n))
  | .unicode v, n => (.unicode (v.take n), .unicode (v.drop n))

/-- `SegmentType::try_merge`: Rust mutates `self` and returns `Some` of the
unmerged argument; we return `(new self, leftover)`. -/
def SegmentType.tryMerge (a b : SegmentType) : SegmentType × Option SegmentType :=
  if MAX_BLOCK_SIZE ≤ a.len + b.len then (a, some b)
  else
    match a, b with
    | .ascii v, .ascii w => (.ascii (v ++ w), none)
    | .utf8 v, .utf8 w => (.utf8 (v ++ w), none)
    | .unicode v, .unicode w => (.unicode (v ++ w), none)
    | a, b => (a, some b)

/-- Flush the current run (if non-empty) and start a fresh one: the
`mem::replace` + conditional `push_front` idiom in `Splitter::make_segments`. -/
def flushTo (cur newCur : SegmentType) : SegmentType × Option SegmentType :=
  (newCur, if cur.len = 0 then none else some cur)

/-- One grapheme cluster's effect on the current run inside
`Splitter::make_segments`; returns the new current run and the flushed one. -/
def clusterStep (cur : SegmentType) (g : List Char) : SegmentType × Option SegmentType :=
  if isAsciiCluster g then
    match cur with
    | .ascii v => (.ascii (v ++ g), none)
    | .utf8 v => if g.any isAsciiAlpha then flushTo (.utf8 v) (.ascii g) else (.utf8 (v ++ g), none)
    | .unicode v => flushTo (.unicode v) (.ascii g)
  else if 2 < utf8Len g then
    match cur with
    | .unicode v => (.unicode (v ++ [g]), none)
    | cur => flushTo cur (.unicode [g])
  else
    match cur with
    | .utf8 v => (.utf8 (v ++ g), none)
    | cur => flushTo cur (.utf8 g)

/-- The grapheme loop of `make_segments`: `segs` is the pending deque with the
most recently pushed run at the head (`push_front`). -/
def makeSegsCore : List (List Char) → SegmentType → List SegmentType →
    SegmentType × List SegmentType
  | [], cur, segs => (cur, segs)
  | g :: rest, cur, segs =>
    match clusterStep cur g with
    | (cur1, none) => makeSegsCore rest cur1 segs
    | (cur1, some r) => makeSegsCore rest cur1 (r :: segs)

/-- Split a string at a byte budget: the maximal prefix of characters whose
total UTF-8 size is at most `b`, and the rest.  At a char boundary `b` this is
exactly Rust's `(&str[..b], &str[b..])`. -/
def takeBytes : List Char → Nat → List Char × List Char
  | [], _ => ([], [])
  | c :: cs, b =>
    if c.utf8Size ≤ b then
      let p := takeBytes cs (b - c.utf8Size)
      (c :: p.1, p.2)
    else ([], c :: cs)

/-- `memrchr(b'\n', &bytes[lo..hi])`: byte offset (relative to `lo`) of the
last newline whose absolute byte offset lies in `[lo, hi)`.  Only `'\n'`
characters contribute a `0x0A` byte in UTF-8. -/
def lastNewlineAux (lo hi : Nat) : List Char → Nat → Option Nat → Option Nat
  | [], _, acc => acc
  | c :: cs, off, acc =>
    lastNewlineAux lo hi cs (off + c.utf8Size)
      (if c = '\n' ∧ lo ≤ off ∧ off < hi then some (off - lo) else acc)

/-- The `while !is_char_boundary(split_point) { split_point -= 1 }` loop:
largest char boundary at most `p`. -/
def floorCharBoundary (cs : List Char) (p : Nat) : Nat := utf8Len (takeBytes cs p).1

/-- `Splitter` state: remaining text and the pending run deque
(head = front = most recently pushed). -/
structure SplitterSt where
  buffer : List Char
  segments : List SegmentType
deriving DecidableEq, Repr

/-- `Splitter::make_segments(split_point)`: consume the window, partition it
into runs, and pop the oldest pending run. -/
def makeSegments (gb : List Char → List (List Char)) (st : SplitterSt) (splitPoint : Nat) :
    Option SegmentType × SplitterSt :=
  let w := (takeBytes st.buffer splitPoint).1
  let rest := (takeBytes st.buffer splitPoint).2
  let r := makeSegsCore (gb w) (SegmentType.ascii []) st.segments
  let segs1 := if r.1.len = 0 then r.2 else r.1 :: r.2
  (segs1.getLast?, ⟨rest, segs1.dropLast⟩)

/-- `<Splitter as Iterator>::next`. -/
def splitterNext (gb : List Char → List (List Char)) (st : SplitterSt) :
    Option (SegmentType × SplitterSt) :=
  if st.buffer.isEmpty && st.segments.isEmpty then none
  else if st.segments.isEmpty then
    let res :=
      if utf8Len st.buffer ≤ MAX_BLOCK_SIZE then
        makeSegments gb st (utf8Len st.buffer)
      else
        let sp := min MAX_BLOCK_SIZE (utf8Len st.buffer - MIN_BLOCK_SIZE)
        match lastNewlineAux (MIN_BLOCK_SIZE - 1) sp st.buffer 0 none with
        | some pos => makeSegments gb st (MIN_BLOCK_SIZE + pos)
        | none => makeSegments gb st (floorCharBoundary st.buffer sp)
    match res with
    | (some s, st') => some (s, st')
    | (none, _) => none
  else
    match st.segments.getLast? with
    | some s => some (s, ⟨st.buffer, st.segments.dropLast⟩)
    | none => none

/-- Drain the splitter iterator (with fuel; `splitterSegs` supplies enough). -/
def splitterRun (gb : List Char → List (List Char)) : Nat → SplitterSt → List SegmentType
  | 0, _ => []
  | fuel + 1, st =>
    match splitterNext gb st with
    | none => []
    | some (s, st') => s :: splitterRun gb fuel st'

/-- `Splitter::new(text).collect()`. -/
def splitterSegs (gb : List Char → List (List Char)) (cs : List Char) : List SegmentType :=
  splitterRun gb (utf8Len cs + 1) ⟨cs, []⟩

/-- `Segment` from segment.rs. -/
structure Segment where
  index : Nat
  tp : SegmentType
deriving DecidableEq, Repr

/-- `impl Default for Segment`. -/
def segDefault : Segment := ⟨0, .ascii []⟩

def Segment.len (s : Segment) : Nat := s.tp.len

/-- `Segment::ord`. -/
def Segment.ord (s : Segment) (i : Nat) : Ordering :=
  if s.index > i then .gt else if s.len + s.index < i then .lt else .eq

/-- `Segment::contains`. -/
def Segment.contains (s : Segment) (i : Nat) : Bool := s.ord i == Ordering.eq

/-- `Segment::try_merge(&mut VecDeque)`: merge the queue's front run into the
segment's own run if possible (queue head = front). -/
def Segment.tryMergeQ (tp : SegmentType) (q : List SegmentType) :
    SegmentType × List SegmentType :=
  match q with
  | [] => (tp, [])
  | f :: rest =>
    match tp.tryMerge f with
    | (tp1, none) => (tp1, rest)
    | (tp1, some f1) => (tp1, f1 :: rest)

/-- The branch structure of `Segment::insert` on the already-split new runs
(`idx` is the local offset, `q0` the deque produced by the splitter):
returns the segment's new run and the remaining queue. -/
def Segment.insertStep (seg : Segment) (idx : Nat) (q0 : List SegmentType) :
    SegmentType × List SegmentType :=
  if seg.tp.len = 0 then
    match q0 with
    | [] => (seg.tp, [])
    | v :: rest => (v, rest)
  else if idx = seg.tp.len - 1 then
    Segment.tryMergeQ seg.tp q0
  else if idx = 0 then
    match q0 with
    | [] => (seg.tp, [])
    | first :: rest => Segment.tryMergeQ first (rest ++ [seg.tp])
  else
    Segment.tryMergeQ (seg.tp.split idx).1 (q0 ++ [(seg.tp.split idx).2])

/-- `Segment::insert(index, text)`: Rust mutates `self` and returns the
overflow deque; we return `(mutated segment, overflow)`. -/
def Segment.insert (gb : List Char → List (List Char)) (seg : Segment) (i : Nat)
    (text : List Char) : Segment × Option (List Segment) :=
  let step := seg.insertStep (i - seg.index) (splitterSegs gb text)
  if step.2.isEmpty then (⟨seg.index, step.1⟩, none)
  else
    (⟨seg.index, step.1⟩,
      some ((step.2.filter (fun t => !t.isEmpty)).map (fun t => ⟨0, t⟩)))

/-- `Segment::cut(range)`: `(mutated segment, optional new sibling)`. -/
def Segment.cut (seg : Segment) (rstart rend : Nat) : Segment × Option Segment :=
  let start := rstart - seg.index
  let e := rend - seg.index
  if seg.tp.len ≤ start then (seg, none)
  else if seg.tp.len ≤ e then
    (⟨seg.index, (seg.tp.split start).1⟩, none)
  else
    let kept := (seg.tp.split start).1
    let tail := ((seg.tp.split start).2.split (e - start)).2
    if tail.len < MIN_BLOCK_SIZE ∨ kept.len < MIN_BLOCK_SIZE then
      match kept.tryMerge tail with
      | (m, none) => (⟨seg.index, m⟩, none)
      | (m, some last) =>
        if last.isEmpty then (⟨seg.index, m⟩, none)
        else (⟨seg.index, m⟩, some ⟨0, last⟩)
    else (⟨seg.index, kept⟩, none)

/-- `Segment::replace(range, text)` (present in segment.rs; the buffer-level
replace path that would call it is commented out in lib.rs). -/
def Segment.replace (gb : List Char → List (List Char)) (seg : Segment)
    (rstart rend : Nat) (text : List Char) : Segment × Option (List Segment) :=
  let start := rstart - seg.index
  let e := rend - seg.index
  let q0 := splitterSegs gb text
  let step : SegmentType × List SegmentType :=
    if seg.tp.len < e then
      Segment.tryMergeQ (seg.tp.split start).1 q0
    else
      let endPart := (seg.tp.split e).2
      let head := ((seg.tp.split e).1.split start).1
      let r := Segment.tryMergeQ head q0
      if endPart.isEmpty then r else (r.1, r.2 ++ [endPart])
  if step.2.isEmpty then (⟨seg.index, step.1⟩, none)
  else
    (⟨seg.index, step.1⟩,
      some ((step.2.filter (fun t => !t.isEmpty)).map (fun t => ⟨0, t⟩)))

/-- `RipString` from lib.rs. -/
structure RipString where
  nodes : List Segment
  last_edit : Nat
deriving DecidableEq, Repr

/-- `RipString::new`. -/
def RipString.new : RipString := ⟨[segDefault], 0⟩

/-- The loop of `slice::binary_search_by`, fuelled: each iteration shrinks
`right - left`, so `right - left` steps always suffice. -/
def binSearchAux (f : Nat → Ordering) : Nat → Nat → Nat → Option Nat
  | 0, _, _ => none
  | fuel + 1, left, right =>
    if left < right then
      match f (left + (right - left) / 2) with
      | .lt => binSearchAux f fuel (left + (right - left) / 2 + 1) right
      | .gt => binSearchAux f fuel left (left + (right - left) / 2)
      | .eq => some (left + (right - left) / 2)
    else none

/-- `slice::binary_search_by` (the standard-library bisection; `none` models
`Err`, which `find_segment` turns into a panic). -/
def binSearch (f : Nat → Ordering) (left right : Nat) : Option Nat :=
  binSearchAux f (right - left) left right

/-- `RipString::find_segment`; `none` models the panic (either the
out-of-bounds `self.nodes[self.last_edit]` or the `expect` on `Err`). -/
def RipString.find_segment (b : RipString) (i : Nat) : Option Nat :=
  match b.nodes.get? b.last_edit with
  | none => none
  | some seg =>
    if seg.contains i then some b.last_edit
    else binSearch (fun k => (b.nodes.getD k segDefault).ord i) 0 b.nodes.length

/-- Rewrite the indices of the segments after position `k`. -/
def fixFromAux (next : Nat) : List Segment → List Segment
  | [] => []
  | s :: rest => ⟨next, s.tp⟩ :: fixFromAux (next + s.tp.len) rest

/-- `RipString::fix_index_from`; `none` models the panic on `self.nodes[seg_index]`. -/
def RipString.fix_index_from (b : RipString) (k : Nat) : Option RipString :=
  match b.nodes.get? k with
  | none => none
  | some s =>
    some ⟨b.nodes.take (k + 1) ++ fixFromAux (s.index + s.tp.len) (b.nodes.drop (k + 1)),
      b.last_edit⟩

/-- The multi-segment-cut splice: keep positions `≤ j1` or `≥ j2`
(the `enumerate`/`filter` pass in `RipString::edit`). -/
def keepOuter (j1 j2 : Nat) (l : List Segment) : List Segment :=
  (l.enum.filter (fun p => decide (p.1 ≤ j1) || decide (j2 ≤ p.1))).map Prod.snd

/-- `RipString::edit(range, new)`; `none` models a panic. -/
def RipString.edit (gb : List Char → List (List Char)) (b : RipString)
    (rstart rend : Nat) (text : List Char) : Option RipString :=
  if rend - rstart = 0 then
    if text.isEmpty then some b
    else
      match b.find_segment rstart with
      | none => none
      | some j =>
        match b.nodes.get? j with
        | none => none
        | some node =>
          let r := node.insert gb rstart text
          let nodes1 := b.nodes.set j r.1
          let nodes2 :=
            match r.2 with
            | none => nodes1
            | some newNodes =>
              if j = nodes1.length - 1 then nodes1 ++ newNodes
              else nodes1.take (j + 1) ++ newNodes ++ nodes1.drop (j + 1)
          RipString.fix_index_from ⟨nodes2, j⟩ j
  else if text.isEmpty then
    match b.find_segment rstart, b.find_segment rend with
    | some j1, some j2 =>
      if j2 = j1 then
        match b.nodes.get? j1 with
        | none => none
        | some node =>
          let r := node.cut rstart rend
          let nodes1 := b.nodes.set j1 r.1
          let nodes2 :=
            match r.2 with
            | none => nodes1
            | some s =>
              if j1 = nodes1.length - 1 then nodes1 ++ [s]
              else nodes1.take (j1 + 1) ++ [s] ++ nodes1.drop (j1 + 1)
          RipString.fix_index_from ⟨nodes2, j2⟩ j1
      else
        match b.nodes.get? j1 with
        | none => none
        | some node1 =>
          let nodes1 := b.nodes.set j1 (node1.cut rstart rend).1
          match nodes1.get? j2 with
          | none => none
          | some node2 =>
            let r2 := node2.cut node2.index rend
            let nodes2 :=
              match r2.2 with
              | none => nodes1.set j2 r2.1
              | some s => nodes1.set j2 s
            RipString.fix_index_from ⟨keepOuter j1 j2 nodes2, j2⟩ j1
    | _, _ => none
  else
    match b.find_segment rstart, b.find_segment rend with
    | some _, some _ => some b
    | _, _ => none

/-- `Display for RipString` / `to_string`. -/
def RipString.render (b : RipString) : List Char := (b.nodes.map (fun s => s.tp.render)).flatten

/-- The fold in `impl From<String> for RipString`: note the index is bumped by
the segment's own length *before* the segment is built (as in the source). -/
def fromFoldGo (idx : Nat) : List SegmentType → List Segment
  | [] => []
  | tp :: rest => ⟨idx + tp.len, tp⟩ :: fromFoldGo (idx + tp.len) rest

/-- `impl From<String> for RipString`. -/
def RipString.fromString (gb : List Char → List (List Char)) (s : List Char) : RipString :=
  let nodes := fromFoldGo 0 (splitterSegs gb s)
  ⟨if nodes.isEmpty then [segDefault] else nodes, 0⟩

/-- All logical elements of the buffer, in order. -/
def nodesElems (l : List Segment) : List (List Char) := (l.map (fun s => s.tp.elems)).flatten

def bufElems (b : RipString) : List (List Char) := nodesElems b.nodes

/-- The buffer's logical length (element count). -/
def RipString.totalLen (b : RipString) : Nat := (bufElems b).length

def sumLen (l : List Segment) : Nat := (l.map (fun s => s.tp.len)).sum

/-- Segment indices are consistent starting from base `k` (spec §3 invariant). -/
def IndexesOk : Nat → List Segment → Prop
  | _, [] => True
  | k, s :: rest => s.index = k ∧ IndexesOk (k + s.tp.len) rest

/-- The buffer invariants needed to run an edit: a valid `last_edit` hint,
consistent indices, and the `MAX_BLOCK_SIZE` bound (spec §3/§8). -/
def Wf (b : RipString) : Prop :=
  b.last_edit < b.nodes.length ∧ IndexesOk 0 b.nodes ∧
    ∀ s ∈ b.nodes, s.tp.len ≤ MAX_BLOCK_SIZE

/-- Contract of the external grapheme iterator (spec §6): successive clusters
concatenate back to the input. -/
def GbContract (gb : List Char → List (List Char)) : Prop := ∀ cs, (gb cs).flatten = cs

/-- The trivial grapheme splitter (each scalar its own cluster); used to
instantiate witnesses. -/
def gbChar : List Char → List (List Char) := fun cs => cs.map (fun c => [c])

/-! ### Basic facts about runs -/

theorem flatten_map_singleton (v : List Char) : (v.map (fun c => [c])).flatten = v := by
  induction v with
  | nil => rfl
  | cons c cs ih => simp [ih]

theorem SegmentType.len_eq (t : SegmentType) : t.len = t.elems.length := by
  cases t <;> simp [SegmentType.len, SegmentType.elems]

theorem SegmentType.render_eq (t : SegmentType) : t.render = t.elems.flatten := by
  cases t <;> simp [SegmentType.render, SegmentType.elems, flatten_map_singleton]

theorem SegmentType.isEmpty_iff (t : SegmentType) : t.isEmpty = true ↔ t.len = 0 := by
  simp [SegmentType.isEmpty]

theorem SegmentType.len_zero_render (t : SegmentType) (h : t.len = 0) : t.render = [] := by
  rw [SegmentType.len_eq] at h
  rw [SegmentType.render_eq, List.length_eq_zero.mp h]
  rfl

def optElems : Option SegmentType → List (List Char)
  | none => []
  | some t => t.elems

def optRender : Option SegmentType → List Char
  | none => []
  | some t => t.render

def qElems (l : List SegmentType) : List (List Char) := (l.map SegmentType.elems).flatten

def qRender (l : List SegmentType) : List Char := (l.map SegmentType.render).flatten

theorem qElems_cons (t : SegmentType) (ts : List SegmentType) :
    qElems (t :: ts) = t.elems ++ qElems ts := by
  simp [qElems]

theorem qRender_cons (t : SegmentType) (ts : List SegmentType) :
    qRender (t :: ts) = t.render ++ qRender ts := by
  simp [qRender]

theorem qRender_append (l1 l2 : List SegmentType) :
    qRender (l1 ++ l2) = qRender l1 ++ qRender l2 := by
  simp [qRender]

theorem qElems_append (l1 l2 : List SegmentType) :
    qElems (l1 ++ l2) = qElems l1 ++ qElems l2 := by
  simp [qElems]

theorem qRender_eq (l : List SegmentType) : qRender l = (qElems l).flatten := by
  induction l with
  | nil => rfl
  | cons t ts ih => simp [qRender_cons, qElems_cons, ih, SegmentType.render_eq]

theorem SegmentType.split_fst_elems (t : SegmentType) (n : Nat) :
    ((t.split n).1).elems = t.elems.take n := by
  cases t <;> simp [SegmentType.split, SegmentType.elems, List.map_take]

theorem SegmentType.split_snd_elems (t : SegmentType) (n : Nat) :
    ((t.split n).2).elems = t.elems.drop n := by
  cases t <;> simp [SegmentType.split, SegmentType.elems, List.map_drop]

theorem tryMerge_elems (a b : SegmentType) :
    ((a.tryMerge b).1).elems ++ optElems (a.tryMerge b).2 = a.elems ++ b.elems := by
  unfold SegmentType.tryMerge
  split
  · simp [optElems]
  · cases a <;> cases b <;> simp [optElems, SegmentType.elems]

theorem tryMergeQ_elems (tp : SegmentType) (q : List SegmentType) :
    ((Segment.tryMergeQ tp q).1).elems ++ qElems (Segment.tryMergeQ tp q).2
      = tp.elems ++ qElems q := by
  cases q with
  | nil => simp [Segment.tryMergeQ, qElems]
  | cons f rest =>
    have h := tryMerge_elems tp f
    rcases hm : tp.tryMerge f with ⟨tp1, o⟩
    rw [hm] at h
    cases o with
    | none =>
      simp only [Segment.tryMergeQ, hm]
      simp only [optElems] at h
      simp only [qElems_cons, ← List.append_assoc]
      simp only [List.append_nil] at h
      rw [h]
    | some f1 =>
      simp only [Segment.tryMergeQ, hm]
      simp only [optElems] at h
      simp only [qElems_cons, ← List.append_assoc]
      rw [h]

theorem qElems_filter (l : List SegmentType) :
    qElems (l.filter (fun t => !t.isEmpty)) = qElems l := by
  induction l with
  | nil => rfl
  | cons t ts ih =>
    by_cases h : t.isEmpty
    · have h0 : t.elems = [] := by
        have := (SegmentType.isEmpty_iff t).1 h
        rw [SegmentType.len_eq] at this
        exact List.length_eq_zero.mp this
      simp [List.filter_cons, h, qElems_cons, h0, ih]
    · simp [List.filter_cons, h, qElems_cons, ih]

/-! ### Splitter: run goodness and content preservation -/

/-- A run flushed by the splitter: non-empty, and it renders at least one
character per logical element. -/
def GoodRun (t : SegmentType) : Prop := 0 < t.len ∧ t.len ≤ t.render.length

/-- Invariant of the splitter's current run. -/
def CurOk (t : SegmentType) : Prop := t.len ≤ t.render.length

theorem GoodRun.render_ne_nil {t : SegmentType} (h : GoodRun t) : t.render ≠ [] := by
  have : 0 < t.render.length := lt_of_lt_of_le h.1 h.2
  exact List.ne_nil_of_length_pos this

theorem utf8Size_pos (c : Char) : 0 < c.utf8Size := by
  unfold Char.utf8Size
  dsimp only
  split_ifs <;> norm_num

theorem utf8Size_le_four (c : Char) : c.utf8Size ≤ 4 := by
  unfold Char.utf8Size
  dsimp only
  split_ifs <;> norm_num

theorem utf8Len_cons (c : Char) (cs : List Char) :
    utf8Len (c :: cs) = c.utf8Size + utf8Len cs := by
  simp [utf8Len]

theorem utf8Len_append (l1 l2 : List Char) :
    utf8Len (l1 ++ l2) = utf8Len l1 + utf8Len l2 := by
  simp [utf8Len]

theorem length_le_utf8Len (cs : List Char) : cs.length ≤ utf8Len cs := by
  induction cs with
  | nil => simp [utf8Len]
  | cons c cs ih =>
    have := utf8Size_pos c
    simp only [List.length_cons, utf8Len_cons]
    omega

theorem utf8Len_pos {cs : List Char} (h : cs ≠ []) : 0 < utf8Len cs := by
  cases cs with
  | nil => exact absurd rfl h
  | cons c cs =>
    have := utf8Size_pos c
    simp only [utf8Len_cons]
    omega

theorem ne_nil_of_two_lt_utf8Len {g : List Char} (h : 2 < utf8Len g) : g ≠ [] := by
  intro hg
  subst hg
  simp [utf8Len] at h

theorem takeBytes_append (cs : List Char) (b : Nat) :
    (takeBytes cs b).1 ++ (takeBytes cs b).2 = cs := by
  induction cs generalizing b with
  | nil => rfl
  | cons c cs ih =>
    unfold takeBytes
    split
    · simp [ih]
    · rfl

theorem takeBytes_cons_of_le {c : Char} (cs : List Char) {b : Nat} (h : c.utf8Size ≤ b) :
    takeBytes (c :: cs) b = (c :: (takeBytes cs (b - c.utf8Size)).1, (takeBytes cs (b - c.utf8Size)).2) := by
  simp [takeBytes, h]

theorem flushTo_content (cur nc : SegmentType) :
    optRender (flushTo cur nc).2 ++ ((flushTo cur nc).1).render = cur.render ++ nc.render := by
  unfold flushTo
  by_cases h : cur.len = 0
  · simp [h, optRender, SegmentType.len_zero_render cur h]
  · simp [h, optRender]

theorem flushTo_flush_good (cur nc : SegmentType) (hcur : CurOk cur) :
    ∀ r, (flushTo cur nc).2 = some r → GoodRun r := by
  unfold flushTo
  by_cases h : cur.len = 0
  · simp [h]
  · intro r hr
    simp [h] at hr
    subst hr
    exact ⟨Nat.pos_of_ne_zero h, hcur⟩

theorem flushTo_fst (cur nc : SegmentType) : (flushTo cur nc).1 = nc := rfl

theorem clusterStep_content (cur : SegmentType) (g : List Char) :
    optRender (clusterStep cur g).2 ++ ((clusterStep cur g).1).render = cur.render ++ g := by
  unfold clusterStep
  by_cases hA : isAsciiCluster g
  · simp only [hA, if_true]
    cases cur with
    | ascii v => simp [optRender, SegmentType.render]
    | utf8 v =>
      by_cases hAl : g.any isAsciiAlpha
      · simpa [hAl, SegmentType.render] using flushTo_content (.utf8 v) (.ascii g)
      · simp [hAl, optRender, SegmentType.render]
    | unicode v => simpa [SegmentType.render] using flushTo_content (.unicode v) (.ascii g)
  · by_cases hU : 2 < utf8Len g
    · simp only [hA, hU, if_true, if_false]
      cases cur with
      | unicode v => simp [optRender, SegmentType.render]
      | ascii v => simpa [SegmentType.render] using flushTo_content (.ascii v) (.unicode [g])
      | utf8 v => simpa [SegmentType.render] using flushTo_content (.utf8 v) (.unicode [g])
    · simp only [hA, hU, if_false]
      cases cur with
      | utf8 v => simp [optRender, SegmentType.render]
      | ascii v => simpa [SegmentType.render] using flushTo_content (.ascii v) (.utf8 g)
      | unicode v => simpa [SegmentType.render] using flushTo_content (.unicode v) (.utf8 g)

theorem len_ascii (v : List Char) : (SegmentType.ascii v).len = v.length := rfl

theorem len_utf8 (v : List Char) : (SegmentType.utf8 v).len = v.length := rfl

theorem len_unicode (v : List (List Char)) : (SegmentType.unicode v).len = v.length := rfl

theorem render_ascii (v : List Char) : (SegmentType.ascii v).render = v := rfl

theorem render_utf8 (v : List Char) : (SegmentType.utf8 v).render = v := rfl

theorem render_unicode (v : List (List Char)) :
    (SegmentType.unicode v).render = v.flatten := rfl

theorem clusterStep_good (cur : SegmentType) (g : List Char) (hcur : CurOk cur) :
    CurOk (clusterStep cur g).1 ∧ ∀ r, (clusterStep cur g).2 = some r → GoodRun r := by
  unfold clusterStep
  by_cases hA : isAsciiCluster g
  · simp only [hA, if_true]
    cases cur with
    | ascii v => exact ⟨Nat.le_refl _, by simp⟩
    | utf8 v =>
      by_cases hAl : g.any isAsciiAlpha
      · simp only [hAl, if_true]
        exact ⟨Nat.le_refl _, flushTo_flush_good _ _ hcur⟩
      · simp only [hAl, if_false]
        exact ⟨Nat.le_refl _, by simp⟩
    | unicode v => exact ⟨Nat.le_refl _, flushTo_flush_good _ _ hcur⟩
  · by_cases hU : 2 < utf8Len g
    · simp only [hA, hU, if_true, if_false]
      have hg : g ≠ [] := ne_nil_of_two_lt_utf8Len hU
      have hg1 : 1 ≤ g.length := List.length_pos.mpr hg
      cases cur with
      | unicode v =>
        refine ⟨?_, by simp⟩
        show CurOk (SegmentType.unicode (v ++ [g]))
        unfold CurOk at hcur ⊢
        simp only [len_unicode, render_unicode, List.flatten_append, List.flatten_cons,
          List.flatten_nil, List.append_nil, List.length_append, List.length_cons,
          List.length_nil] at hcur ⊢
        omega
      | ascii v =>
        refine ⟨?_, flushTo_flush_good _ _ hcur⟩
        show CurOk (SegmentType.unicode [g])
        unfold CurOk
        simp only [len_unicode, render_unicode, List.flatten_cons, List.flatten_nil,
          List.append_nil, List.length_cons, List.length_nil]
        omega
      | utf8 v =>
        refine ⟨?_, flushTo_flush_good _ _ hcur⟩
        show CurOk (SegmentType.unicode [g])
        unfold CurOk
        simp only [len_unicode, render_unicode, List.flatten_cons, List.flatten_nil,
          List.append_nil, List.length_cons, List.length_nil]
        omega
    · simp only [hA, hU, if_false]
      cases cur with
      | utf8 v => exact ⟨Nat.le_refl _, by simp⟩
      | ascii v => exact ⟨Nat.le_refl _, flushTo_flush_good _ _ hcur⟩
      | unicode v => exact ⟨Nat.le_refl _, flushTo_flush_good _ _ hcur⟩

theorem qRender_reverse_cons (r : SegmentType) (segs : List SegmentType) :
    qRender ((r :: segs).reverse) = qRender segs.reverse ++ r.render := by
  simp [qRender]

theorem makeSegsCore_content (gs : List (List Char)) :
    ∀ cur segs,
      qRender ((makeSegsCore gs cur segs).2).reverse ++ ((makeSegsCore gs cur segs).1).render
        = qRender segs.reverse ++ cur.render ++ gs.flatten := by
  induction gs with
  | nil => intro cur segs; simp [makeSegsCore]
  | cons g rest ih =>
    intro cur segs
    have hc := clusterStep_content cur g
    rcases hst : clusterStep cur g with ⟨cur1, fl⟩
    rw [hst] at hc
    cases fl with
    | none =>
      simp only [makeSegsCore, hst]
      rw [ih cur1 segs]
      simp only [optRender] at hc
      simp only [List.nil_append] at hc
      rw [List.flatten_cons, hc]
      simp [List.append_assoc]
    | some r =>
      simp only [makeSegsCore, hst]
      rw [ih cur1 (r :: segs), qRender_reverse_cons]
      simp only [optRender] at hc
      rw [List.flatten_cons]
      calc qRender segs.reverse ++ r.render ++ cur1.render ++ rest.flatten
          = qRender segs.reverse ++ (r.render ++ cur1.render) ++ rest.flatten := by
            simp [List.append_assoc]
        _ = qRender segs.reverse ++ (cur.render ++ g) ++ rest.flatten := by rw [hc]
        _ = qRender segs.reverse ++ cur.render ++ (g ++ rest.flatten) := by
            simp [List.append_assoc]

theorem makeSegsCore_good (gs : List (List Char)) :
    ∀ cur segs, CurOk cur → (∀ t ∈ segs, GoodRun t) →
      CurOk (makeSegsCore gs cur segs).1 ∧ ∀ t ∈ (makeSegsCore gs cur segs).2, GoodRun t := by
  induction gs with
  | nil => intro cur segs h1 h2; exact ⟨h1, h2⟩
  | cons g rest ih =>
    intro cur segs h1 h2
    have hg := clusterStep_good cur g h1
    rcases hst : clusterStep cur g with ⟨cur1, fl⟩
    rw [hst] at hg
    cases fl with
    | none =>
      simp only [makeSegsCore, hst]
      exact ih cur1 segs hg.1 h2
    | some r =>
      simp only [makeSegsCore, hst]
      refine ih cur1 (r :: segs) hg.1 ?_
      intro t ht
      rcases List.mem_cons.mp ht with h | h
      · subst h; exact hg.2 _ rfl
      · exact h2 t h

theorem makeSegments_spec (gb : List Char → List (List Char)) (buffer : List Char) (sp : Nat) :
    ∃ segs1 : List SegmentType,
      makeSegments gb ⟨buffer, []⟩ sp
        = (segs1.getLast?, ⟨(takeBytes buffer sp).2, segs1.dropLast⟩)
      ∧ qRender segs1.reverse = (gb ((takeBytes buffer sp).1)).flatten
      ∧ ∀ t ∈ segs1, GoodRun t := by
  have hcontent := makeSegsCore_content (gb ((takeBytes buffer sp).1)) (SegmentType.ascii []) []
  have hgood := makeSegsCore_good (gb ((takeBytes buffer sp).1)) (SegmentType.ascii []) []
    (Nat.le_refl _) (by intro t ht; cases ht)
  rcases hcore : makeSegsCore (gb ((takeBytes buffer sp).1)) (SegmentType.ascii []) []
    with ⟨cur, segs⟩
  rw [hcore] at hcontent hgood
  refine ⟨if cur.len = 0 then segs else cur :: segs, ?_, ?_, ?_⟩
  · simp only [makeSegments, hcore]
  · by_cases h : cur.len = 0
    · simp only [h, if_true]
      have : cur.render = [] := SegmentType.len_zero_render cur h
      simpa [this, qRender, render_ascii] using hcontent
    · simp only [h, if_false]
      rw [qRender_reverse_cons]
      simpa [qRender, render_ascii] using hcontent
  · intro t ht
    by_cases h : cur.len = 0
    · rw [if_pos h] at ht
      exact hgood.2 t ht
    · rw [if_neg h] at ht
      rcases List.mem_cons.mp ht with h' | h'
      · subst h'; exact ⟨Nat.pos_of_ne_zero h, hgood.1⟩
      · exact hgood.2 t h'

theorem length_le_qRender (l : List SegmentType) (h : ∀ t ∈ l, GoodRun t) :
    l.length ≤ (qRender l).length := by
  induction l with
  | nil => simp [qRender]
  | cons t ts ih =>
    have hg := h t (List.mem_cons_self t ts)
    have h1 : 0 < t.render.length := lt_of_lt_of_le hg.1 hg.2
    have h2 := ih (fun t' ht' => h t' (List.mem_cons_of_mem _ ht'))
    simp only [qRender_cons, List.length_append, List.length_cons]
    omega

theorem qRender_reverse_decomp (l : List SegmentType) (h : l ≠ []) :
    qRender l.reverse = (l.getLast h).render ++ qRender l.dropLast.reverse := by
  conv_lhs => rw [← List.dropLast_append_getLast h]
  rw [List.reverse_append]
  simp [qRender_cons, qRender_append]

theorem takeBytes_fst_ne_nil {c : Char} (tl : List Char) {sp : Nat} (h : c.utf8Size ≤ sp) :
    (takeBytes (c :: tl) sp).1 ≠ [] := by
  rw [takeBytes_cons_of_le tl h]
  simp

theorem floorCharBoundary_head_le {c : Char} (tl : List Char) {sp0 : Nat}
    (h : c.utf8Size ≤ sp0) : c.utf8Size ≤ floorCharBoundary (c :: tl) sp0 := by
  unfold floorCharBoundary
  rw [takeBytes_cons_of_le tl h]
  simp only [utf8Len_cons]
  exact Nat.le_add_right _ _

/-- A window step of `Splitter::next`: with a non-empty window the splitter
emits a run, preserves the content, and strictly shrinks the measure. -/
theorem window_step (gb : List Char → List (List Char)) (hgb : GbContract gb)
    (buffer : List Char) (sp : Nat) (hw : (takeBytes buffer sp).1 ≠ []) :
    ∃ s st', makeSegments gb ⟨buffer, []⟩ sp = (some s, st')
      ∧ s.render ++ (qRender st'.segments.reverse ++ st'.buffer) = buffer
      ∧ utf8Len st'.buffer + st'.segments.length < utf8Len buffer
      ∧ ∀ t ∈ st'.segments, GoodRun t := by
  obtain ⟨segs1, heq, hcont, hgood⟩ := makeSegments_spec gb buffer sp
  rw [hgb] at hcont
  have hne : segs1 ≠ [] := by
    intro h
    subst h
    simp only [List.reverse_nil, qRender] at hcont
    simp at hcont
    exact hw hcont
  have hlastq : segs1.getLast? = some (segs1.getLast hne) := List.getLast?_eq_getLast segs1 hne
  refine ⟨segs1.getLast hne, ⟨(takeBytes buffer sp).2, segs1.dropLast⟩, ?_, ?_, ?_, ?_⟩
  · rw [heq, hlastq]
  · have hdec := qRender_reverse_decomp segs1 hne
    rw [hdec] at hcont
    calc (segs1.getLast hne).render ++ (qRender segs1.dropLast.reverse ++ (takeBytes buffer sp).2)
        = ((segs1.getLast hne).render ++ qRender segs1.dropLast.reverse)
            ++ (takeBytes buffer sp).2 := by rw [List.append_assoc]
      _ = (takeBytes buffer sp).1 ++ (takeBytes buffer sp).2 := by rw [hcont]
      _ = buffer := takeBytes_append buffer sp
  · dsimp only
    have hlen1 : segs1.reverse.length ≤ (qRender segs1.reverse).length :=
      length_le_qRender _ (fun t ht => hgood t (List.mem_reverse.mp ht))
    rw [hcont] at hlen1
    have hw1 : (takeBytes buffer sp).1.length ≤ utf8Len ((takeBytes buffer sp).1) :=
      length_le_utf8Len _
    have hw2 : 0 < utf8Len ((takeBytes buffer sp).1) := utf8Len_pos hw
    have hbuf : utf8Len ((takeBytes buffer sp).1) + utf8Len ((takeBytes buffer sp).2)
        = utf8Len buffer := by
      rw [← utf8Len_append, takeBytes_append]
    have hdl : segs1.dropLast.length = segs1.length - 1 := List.length_dropLast segs1
    have hrl : segs1.reverse.length = segs1.length := List.length_reverse segs1
    have hpos : 0 < segs1.length := List.length_pos.mpr hne
    omega
  · intro t ht
    refine hgood t ?_
    have := List.dropLast_append_getLast hne
    rw [← this]
    exact List.mem_append_left _ ht

/-- Full specification of one `Splitter::next` call, given good pending runs:
if it returns `none` all content is exhausted; if it returns a run, content is
preserved and the termination measure shrinks. -/
theorem splitterNext_spec (gb : List Char → List (List Char)) (hgb : GbContract gb)
    (st : SplitterSt) (hseg : ∀ t ∈ st.segments, GoodRun t) :
    (splitterNext gb st = none → qRender st.segments.reverse ++ st.buffer = []) ∧
    ∀ s st', splitterNext gb st = some (s, st') →
      s.render ++ (qRender st'.segments.reverse ++ st'.buffer)
          = qRender st.segments.reverse ++ st.buffer
        ∧ utf8Len st'.buffer + st'.segments.length < utf8Len st.buffer + st.segments.length
        ∧ ∀ t ∈ st'.segments, GoodRun t := by
  rcases st with ⟨buffer, segments⟩
  rcases hsegs : segments with _ | ⟨s0, ss⟩
  · -- empty pending queue: take a window (or end)
    rcases hbuf : buffer with _ | ⟨c, tl⟩
    · constructor
      · intro _
        simp [qRender]
      · intro s st' h
        simp [splitterNext] at h
    · -- buffer = c :: tl, segments = []
      have hfit : ∃ sp, splitterNext gb ⟨c :: tl, []⟩
            = (match makeSegments gb ⟨c :: tl, []⟩ sp with
               | (some s, st') => some (s, st')
               | (none, _) => none)
          ∧ c.utf8Size ≤ sp := by
        by_cases hsmall : utf8Len (c :: tl) ≤ MAX_BLOCK_SIZE
        · refine ⟨utf8Len (c :: tl), ?_, ?_⟩
          · simp [splitterNext, hsmall]
          · rw [utf8Len_cons]; exact Nat.le_add_right _ _
        · have hs4 : c.utf8Size ≤ 4 := utf8Size_le_four c
          have hbig : MAX_BLOCK_SIZE < utf8Len (c :: tl) := Nat.lt_of_not_le hsmall
          rcases hnl : lastNewlineAux (MIN_BLOCK_SIZE - 1)
              (min MAX_BLOCK_SIZE (utf8Len (c :: tl) - MIN_BLOCK_SIZE)) (c :: tl) 0 none
            with _ | pos
          · refine ⟨floorCharBoundary (c :: tl)
                (min MAX_BLOCK_SIZE (utf8Len (c :: tl) - MIN_BLOCK_SIZE)), ?_, ?_⟩
            · simp [splitterNext, hsmall, hnl]
            · refine floorCharBoundary_head_le tl ?_
              have : (512 : Nat) ≤ min MAX_BLOCK_SIZE (utf8Len (c :: tl) - MIN_BLOCK_SIZE) := by
                simp only [MAX_BLOCK_SIZE, MIN_BLOCK_SIZE] at *
                omega
              omega
          · refine ⟨MIN_BLOCK_SIZE + pos, ?_, ?_⟩
            · simp [splitterNext, hsmall, hnl]
            · simp only [MIN_BLOCK_SIZE]
              omega
      obtain ⟨sp, hnext, hsp⟩ := hfit
      obtain ⟨s, st', hmk, hcont, hmeas, hgood⟩ :=
        window_step gb hgb (c :: tl) sp (takeBytes_fst_ne_nil tl hsp)
      rw [hmk] at hnext
      constructor
      · intro hnone
        rw [hnext] at hnone
        cases hnone
      · intro s1 st1 hsome
        rw [hnext] at hsome
        cases hsome
        refine ⟨?_, ?_, hgood⟩
        · simpa [qRender] using hcont
        · simpa using hmeas
  · -- pending queue non-empty: pop the back
    have hne : s0 :: ss ≠ [] := by simp
    have hlastq : (s0 :: ss).getLast? = some ((s0 :: ss).getLast hne) :=
      List.getLast?_eq_getLast _ hne
    have hnext : splitterNext gb ⟨buffer, s0 :: ss⟩
        = some ((s0 :: ss).getLast hne, ⟨buffer, (s0 :: ss).dropLast⟩) := by
      simp [splitterNext, hlastq]
    constructor
    · intro hnone
      rw [hnext] at hnone
      cases hnone
    · intro s1 st1 hsome
      rw [hnext] at hsome
      cases hsome
      refine ⟨?_, ?_, ?_⟩
      · rw [← List.append_assoc, ← qRender_reverse_decomp (s0 :: ss) hne]
      · have := List.length_dropLast (s0 :: ss)
        simp only [this]
        simp
      · intro t ht
        refine hseg t ?_
        rw [hsegs]
        have hdec := List.dropLast_append_getLast hne
        rw [← hdec]
        exact List.mem_append_left _ ht

theorem splitterRun_content (gb : List Char → List (List Char)) (hgb : GbContract gb) :
    ∀ fuel st, (∀ t ∈ st.segments, GoodRun t) →
      utf8Len st.buffer + st.segments.length < fuel →
      qRender (splitterRun gb fuel st) = qRender st.segments.reverse ++ st.buffer := by
  intro fuel
  induction fuel with
  | zero => intro st _ h; omega
  | succ n ih =>
    intro st hseg hm
    obtain ⟨hnone, hsome⟩ := splitterNext_spec gb hgb st hseg
    rcases hnx : splitterNext gb st with _ | ⟨s, st'⟩
    · simp only [splitterRun, hnx]
      rw [hnone hnx]
      simp [qRender]
    · obtain ⟨hcont, hmeas, hgood⟩ := hsome s st' hnx
      simp only [splitterRun, hnx]
      rw [qRender_cons, ih st' hgood (by omega), hcont]

/-- Invariant 7 of the spec: the splitter's runs concatenate to the source. -/
theorem splitterSegs_content (gb : List Char → List (List Char)) (hgb : GbContract gb)
    (cs : List Char) : qRender (splitterSegs gb cs) = cs := by
  unfold splitterSegs
  rw [splitterRun_content gb hgb _ ⟨cs, []⟩ (by intro t ht; cases ht) (by simp)]
  simp [qRender]

theorem mem_of_getLast?_eq {α : Type} {l : List α} {a : α} (h : l.getLast? = some a) :
    a ∈ l := by
  cases l with
  | nil => cases h
  | cons x xs =>
    have hne : x :: xs ≠ [] := by simp
    rw [List.getLast?_eq_getLast _ hne] at h
    injection h with h1
    rw [← h1]
    exact List.getLast_mem hne

theorem makeSegments_good (gb : List Char → List (List Char)) (buffer : List Char) (sp : Nat)
    (os : Option SegmentType) (st' : SplitterSt)
    (h : makeSegments gb ⟨buffer, []⟩ sp = (os, st')) :
    (∀ s, os = some s → GoodRun s) ∧ ∀ t ∈ st'.segments, GoodRun t := by
  obtain ⟨segs1, heq, _, hgood⟩ := makeSegments_spec gb buffer sp
  rw [heq] at h
  injection h with h1 h2
  constructor
  · intro s hs
    rw [← h1] at hs
    exact hgood s (mem_of_getLast?_eq hs)
  · intro t ht
    rw [← h2] at ht
    simp only at ht
    exact hgood t (List.dropLast_subset segs1 ht)

theorem splitterNext_good (gb : List Char → List (List Char)) (st : SplitterSt)
    (hseg : ∀ t ∈ st.segments, GoodRun t) (s : SegmentType) (st' : SplitterSt)
    (h : splitterNext gb st = some (s, st')) :
    GoodRun s ∧ ∀ t ∈ st'.segments, GoodRun t := by
  rcases st with ⟨buffer, segments⟩
  rcases hsegs : segments with _ | ⟨s0, ss⟩
  · subst hsegs
    have hsp : ∃ sp, makeSegments gb ⟨buffer, []⟩ sp
        = (some s, st') := by
      by_cases hsmall : utf8Len buffer ≤ MAX_BLOCK_SIZE
      · refine ⟨utf8Len buffer, ?_⟩
        simp only [splitterNext, hsmall, if_true, List.isEmpty_nil, Bool.and_true] at h
        rcases hmk : makeSegments gb ⟨buffer, []⟩ (utf8Len buffer) with ⟨os, stx⟩
        rw [hmk] at h
        cases os with
        | none => simp at h
        | some s1 =>
          simp at h
          rw [h.2.1, h.2.2]
      · rcases hnl : lastNewlineAux (MIN_BLOCK_SIZE - 1)
            (min MAX_BLOCK_SIZE (utf8Len buffer - MIN_BLOCK_SIZE)) buffer 0 none
          with _ | pos
        · refine ⟨floorCharBoundary buffer
              (min MAX_BLOCK_SIZE (utf8Len buffer - MIN_BLOCK_SIZE)), ?_⟩
          simp only [splitterNext, hsmall, if_false, hnl, List.isEmpty_nil, Bool.and_true] at h
          rcases hmk : makeSegments gb ⟨buffer, []⟩ (floorCharBoundary buffer
              (min MAX_BLOCK_SIZE (utf8Len buffer - MIN_BLOCK_SIZE))) with ⟨os, stx⟩
          rw [hmk] at h
          cases os with
          | none => simp at h
          | some s1 =>
            simp at h
            rw [h.2.1, h.2.2]
        · refine ⟨MIN_BLOCK_SIZE + pos, ?_⟩
          simp only [splitterNext, hsmall, if_false, hnl, List.isEmpty_nil, Bool.and_true] at h
          rcases hmk : makeSegments gb ⟨buffer, []⟩ (MIN_BLOCK_SIZE + pos) with ⟨os, stx⟩
          rw [hmk] at h
          cases os with
          | none => simp at h
          | some s1 =>
            simp at h
            rw [h.2.1, h.2.2]
    obtain ⟨sp, hmk⟩ := hsp
    have := makeSegments_good gb buffer sp (some s) st' hmk
    exact ⟨this.1 s rfl, this.2⟩
  · subst hsegs
    have hne : s0 :: ss ≠ [] := by simp
    have hlastq : (s0 :: ss).getLast? = some ((s0 :: ss).getLast hne) :=
      List.getLast?_eq_getLast _ hne
    have hnext : splitterNext gb ⟨buffer, s0 :: ss⟩
        = some ((s0 :: ss).getLast hne, ⟨buffer, (s0 :: ss).dropLast⟩) := by
      simp [splitterNext, hlastq]
    rw [hnext] at h
    cases h
    constructor
    · exact hseg _ (List.getLast_mem hne)
    · intro t ht
      simp only at ht
      exact hseg t (List.dropLast_subset _ ht)

theorem splitterRun_good (gb : List Char → List (List Char)) :
    ∀ fuel st, (∀ t ∈ st.segments, GoodRun t) →
      ∀ t ∈ splitterRun gb fuel st, GoodRun t := by
  intro fuel
  induction fuel with
  | zero => intro st _ t ht; cases ht
  | succ n ih =>
    intro st hseg t ht
    rcases hnx : splitterNext gb st with _ | ⟨s, st'⟩
    · simp only [splitterRun, hnx] at ht
      cases ht
    · obtain ⟨hgs, hgood⟩ := splitterNext_good gb st hseg s st' hnx
      simp only [splitterRun, hnx] at ht
      rcases List.mem_cons.mp ht with h | h
      · subst h; exact hgs
      · exact ih st' hgood t h

theorem splitterSegs_good (gb : List Char → List (List Char)) (cs : List Char) :
    ∀ t ∈ splitterSegs gb cs, GoodRun t :=
  splitterRun_good gb _ ⟨cs, []⟩ (by intro t ht; cases ht)

theorem splitterSegs_ne_nil (gb : List Char → List (List Char)) (hgb : GbContract gb)
    {cs : List Char} (h : cs ≠ []) : splitterSegs gb cs ≠ [] := by
  intro h0
  have hc := splitterSegs_content gb hgb cs
  rw [h0] at hc
  simp [qRender] at hc
  exact h hc

/-! ### Binary search and segment lookup -/

theorem binSearchAux_some {f : Nat → Ordering} :
    ∀ fuel left right m, binSearchAux f fuel left right = some m →
      left ≤ m ∧ m < right ∧ f m = .eq := by
  intro fuel
  induction fuel with
  | zero => intro l r m h; cases h
  | succ n ih =>
    intro l r m h
    simp only [binSearchAux] at h
    by_cases hlr : l < r
    · rw [if_pos hlr] at h
      rcases hf : f (l + (r - l) / 2) with _ | _ | _
      · rw [hf] at h
        obtain ⟨h1, h2, h3⟩ := ih _ _ _ h
        exact ⟨by omega, h2, h3⟩
      · rw [hf] at h
        injection h with h1
        subst h1
        exact ⟨by omega, by omega, hf⟩
      · rw [hf] at h
        obtain ⟨h1, h2, h3⟩ := ih _ _ _ h
        exact ⟨h1, by omega, h3⟩
    · rw [if_neg hlr] at h
      cases h

theorem binSearchAux_success {f : Nat → Ordering} {R : Nat}
    (hlt : ∀ j k, j < k → k < R → f k = .lt → f j = .lt)
    (hgt : ∀ j k, j < k → k < R → f j = .gt → f k = .gt) :
    ∀ fuel left right, right ≤ R → right - left ≤ fuel →
      (∃ j, left ≤ j ∧ j < right ∧ f j = .eq) →
      ∃ m, binSearchAux f fuel left right = some m := by
  intro fuel
  induction fuel with
  | zero =>
    intro l r _ hf ⟨j, hj1, hj2, _⟩
    omega
  | succ n ih =>
    intro l r hR hf ⟨j, hj1, hj2, hj3⟩
    have hlr : l < r := by omega
    simp only [binSearchAux, if_pos hlr]
    rcases hfm : f (l + (r - l) / 2) with _ | _ | _
    · have hjmid : l + (r - l) / 2 < j := by
        rcases Nat.lt_trichotomy j (l + (r - l) / 2) with h | h | h
        · have := hlt j _ h (by omega) hfm
          rw [hj3] at this
          cases this
        · rw [← h] at hfm
          rw [hj3] at hfm
          cases hfm
        · exact h
      exact ih _ _ hR (by omega) ⟨j, by omega, hj2, hj3⟩
    · exact ⟨_, rfl⟩
    · have hjmid : j < l + (r - l) / 2 := by
        rcases Nat.lt_trichotomy j (l + (r - l) / 2) with h | h | h
        · exact h
        · rw [← h] at hfm
          rw [hj3] at hfm
          cases hfm
        · have := hgt _ j h (by omega) hfm
          rw [hj3] at this
          cases this
      exact ih _ _ (by omega) (by omega) ⟨j, hj1, hjmid, hj3⟩

theorem binSearch_some {f : Nat → Ordering} {l r m : Nat} (h : binSearch f l r = some m) :
    l ≤ m ∧ m < r ∧ f m = .eq :=
  binSearchAux_some _ _ _ _ h

theorem ord_eq_iff (s : Segment) (i : Nat) :
    s.ord i = .eq ↔ s.index ≤ i ∧ i ≤ s.len + s.index := by
  unfold Segment.ord
  split_ifs with h1 h2
  · constructor
    · intro hx; cases hx
    · intro hx; exact absurd hx.1 (by omega)
  · constructor
    · intro hx; cases hx
    · intro hx; exact absurd hx.2 (by omega)
  · constructor
    · intro _; exact ⟨by omega, by omega⟩
    · intro _; rfl

theorem ord_lt_iff (s : Segment) (i : Nat) : s.ord i = .lt ↔ s.len + s.index < i := by
  unfold Segment.ord
  split_ifs with h1 h2
  · constructor
    · intro hx; cases hx
    · intro hx; exact absurd hx (by omega)
  · simp [h2]
  · constructor
    · intro hx; cases hx
    · intro hx; exact absurd hx h2

theorem ord_gt_iff (s : Segment) (i : Nat) : s.ord i = .gt ↔ i < s.index := by
  unfold Segment.ord
  split_ifs with h1 h2
  · simpa using h1
  · constructor
    · intro hx; cases hx
    · intro hx; exact absurd hx (by omega)
  · constructor
    · intro hx; cases hx
    · intro hx; exact absurd hx (by omega)

theorem contains_iff (s : Segment) (i : Nat) : s.contains i = true ↔ s.ord i = .eq := by
  unfold Segment.contains
  cases h : s.ord i <;> simp [h] <;> decide

theorem sumLen_append (a b : List Segment) : sumLen (a ++ b) = sumLen a + sumLen b := by
  simp [sumLen]

theorem sumLen_take_mono (l : List Segment) {j k : Nat} (h : j ≤ k) :
    sumLen (l.take j) ≤ sumLen (l.take k) := by
  have hk : k = j + (k - j) := by omega
  rw [hk, List.take_add, sumLen_append]
  exact Nat.le_add_right _ _

theorem nodesElems_cons (s : Segment) (rest : List Segment) :
    nodesElems (s :: rest) = s.tp.elems ++ nodesElems rest := by
  simp [nodesElems]

theorem nodesElems_append (a b : List Segment) :
    nodesElems (a ++ b) = nodesElems a ++ nodesElems b := by
  simp [nodesElems]

theorem nodesElems_length (l : List Segment) : (nodesElems l).length = sumLen l := by
  induction l with
  | nil => rfl
  | cons s rest ih =>
    rw [nodesElems_cons]
    simp only [List.length_append, ih, sumLen, List.map_cons, List.sum_cons]
    rw [← SegmentType.len_eq]

theorem totalLen_eq_sumLen (b : RipString) : b.totalLen = sumLen b.nodes :=
  nodesElems_length b.nodes

theorem indexesOk_get (l : List Segment) :
    ∀ (k : Nat), IndexesOk k l →
      ∀ j seg, l.get? j = some seg → seg.index = k + sumLen (l.take j) := by
  induction l with
  | nil => intro k _ j seg hj; cases hj
  | cons s rest ih =>
    intro k h j seg hj
    obtain ⟨hs, hrest⟩ := h
    cases j with
    | zero =>
      injection hj with h1
      subst h1
      simp [sumLen, hs]
    | succ n =>
      have := ih (k + s.tp.len) hrest n seg (by simpa using hj)
      rw [this]
      simp only [List.take_succ_cons, sumLen, List.map_cons, List.sum_cons]
      omega

theorem sumLen_take_succ (l : List Segment) (j : Nat) (seg : Segment)
    (hj : l.get? j = some seg) :
    sumLen (l.take (j + 1)) = sumLen (l.take j) + seg.tp.len := by
  have hj' : l[j]? = some seg := by
    rw [← List.get?_eq_getElem?]
    exact hj
  rw [List.take_succ, hj']
  simp [sumLen_append, sumLen]

theorem exists_containing (l : List Segment) :
    ∀ (k : Nat), IndexesOk k l → ∀ i, k ≤ i → i ≤ k + sumLen l → l ≠ [] →
      ∃ j seg, l.get? j = some seg ∧ seg.ord i = .eq := by
  induction l with
  | nil => intro k _ i _ _ hne; cases hne rfl
  | cons s rest ih =>
    intro k h i h1 h2 _
    obtain ⟨hs, hrest⟩ := h
    by_cases hc : i ≤ k + s.tp.len
    · refine ⟨0, s, rfl, ?_⟩
      rw [ord_eq_iff]
      constructor
      · omega
      · have : s.len = s.tp.len := rfl
        omega
    · cases rest with
      | nil =>
        exfalso
        simp [sumLen] at h2
        omega
      | cons s2 r2 =>
        obtain ⟨j, seg, hj, ho⟩ := ih (k + s.tp.len) hrest i (by omega)
          (by simp only [sumLen, List.map_cons, List.sum_cons] at h2 ⊢; omega) (by simp)
        exact ⟨j + 1, seg, by simpa using hj, ho⟩

theorem getD_of_get? {l : List Segment} {j : Nat} {seg : Segment}
    (h : l.get? j = some seg) (d : Segment) : l.getD j d = seg := by
  have h0 : l.getD j d = (l.get? j).getD d := rfl
  rw [h0, h]
  rfl

/-- Whatever `find_segment` returns points at a segment whose `ord` is
`Equal` for the queried index: in particular its base is at most the index
(no `usize` underflow in the delegated segment operations) and the index is
at most its end. -/
theorem find_segment_ord (b : RipString) (i j : Nat) (h : b.find_segment i = some j) :
    ∃ seg, b.nodes.get? j = some seg ∧ seg.ord i = .eq := by
  unfold RipString.find_segment at h
  rcases hle : b.nodes.get? b.last_edit with _ | seg0
  · rw [hle] at h; cases h
  · rw [hle] at h
    dsimp only at h
    by_cases hc : seg0.contains i
    · rw [if_pos hc] at h
      injection h with h1
      subst h1
      exact ⟨seg0, hle, (contains_iff seg0 i).1 hc⟩
    · rw [if_neg hc] at h
      obtain ⟨_, h2, h3⟩ := binSearch_some h
      rcases hget : b.nodes.get? j with _ | seg
      · rw [List.get?_eq_none] at hget
        omega
      · refine ⟨seg, rfl, ?_⟩
        rw [getD_of_get? hget segDefault] at h3
        exact h3

theorem find_segment_base_le (b : RipString) (i j : Nat) (h : b.find_segment i = some j) :
    ∃ seg, b.nodes.get? j = some seg ∧ seg.index ≤ i ∧ i ≤ seg.len + seg.index := by
  obtain ⟨seg, hg, ho⟩ := find_segment_ord b i j h
  obtain ⟨h1, h2⟩ := (ord_eq_iff seg i).1 ho
  exact ⟨seg, hg, h1, h2⟩

/-- Under the buffer invariants, `find_segment` succeeds for every index up to
the logical length. -/
theorem find_segment_success (b : RipString) (hwf : Wf b) (i : Nat)
    (hi : i ≤ b.totalLen) : ∃ j, b.find_segment i = some j := by
  obtain ⟨hle, hidx, _⟩ := hwf
  unfold RipString.find_segment
  rcases hget : b.nodes.get? b.last_edit with _ | seg0
  · rw [List.get?_eq_none] at hget
    omega
  · dsimp only
    by_cases hc : seg0.contains i
    · rw [if_pos hc]
      exact ⟨_, rfl⟩
    · rw [if_neg hc]
      have hne : b.nodes ≠ [] := by
        intro h0
        rw [h0] at hle
        simp at hle
      rw [totalLen_eq_sumLen] at hi
      obtain ⟨j, seg, hj, ho⟩ := exists_containing b.nodes 0 hidx i (Nat.zero_le i)
        (by omega) hne
      have hjlen : j < b.nodes.length := by
        by_contra hx
        rw [List.get?_eq_none.mpr (by omega)] at hj
        cases hj
      have hf : (fun k => (b.nodes.getD k segDefault).ord i) j = .eq := by
        simp only
        rw [getD_of_get? hj segDefault]
        exact ho
      refine binSearchAux_success (R := b.nodes.length) ?_ ?_ _ 0 b.nodes.length
        (Nat.le_refl _) (by omega) ⟨j, Nat.zero_le j, hjlen, hf⟩
      · intro a k hak hkR hlt
        rcases hgk : b.nodes.get? k with _ | sk
        · rw [List.get?_eq_none] at hgk
          omega
        · rcases hga : b.nodes.get? a with _ | sa
          · rw [List.get?_eq_none] at hga
            omega
          · simp only at hlt ⊢
            rw [getD_of_get? hgk segDefault] at hlt
            rw [getD_of_get? hga segDefault]
            rw [ord_lt_iff] at hlt ⊢
            have hbk := indexesOk_get b.nodes 0 hidx k sk hgk
            have hba := indexesOk_get b.nodes 0 hidx a sa hga
            have hek := sumLen_take_succ b.nodes k sk hgk
            have hea := sumLen_take_succ b.nodes a sa hga
            have hmono : sumLen (b.nodes.take (a + 1)) ≤ sumLen (b.nodes.take k) :=
              sumLen_take_mono b.nodes (by omega)
            have hmono2 : sumLen (b.nodes.take k) ≤ sumLen (b.nodes.take (k + 1)) :=
              sumLen_take_mono b.nodes (by omega)
            have hlen : (Segment.len sk) = sk.tp.len := rfl
            have hlen2 : (Segment.len sa) = sa.tp.len := rfl
            omega
      · intro a k hak hkR hgt
        rcases hgk : b.nodes.get? k with _ | sk
        · rw [List.get?_eq_none] at hgk
          omega
        · rcases hga : b.nodes.get? a with _ | sa
          · rw [List.get?_eq_none] at hga
            have : a < k := hak
            omega
          · simp only at hgt ⊢
            rw [getD_of_get? hga segDefault] at hgt
            rw [getD_of_get? hgk segDefault]
            rw [ord_gt_iff] at hgt ⊢
            have hbk := indexesOk_get b.nodes 0 hidx k sk hgk
            have hba := indexesOk_get b.nodes 0 hidx a sa hga
            have hea := sumLen_take_succ b.nodes a sa hga
            have hmono : sumLen (b.nodes.take (a + 1)) ≤ sumLen (b.nodes.take k) :=
              sumLen_take_mono b.nodes (by omega)
            omega

/-! ### Construction lemmas -/

theorem gbChar_contract : GbContract gbChar := by
  intro cs
  induction cs with
  | nil => rfl
  | cons c rest ih => simpa [gbChar] using ih

def nodesRender (l : List Segment) : List Char := (l.map (fun s => s.tp.render)).flatten

theorem render_eq_nodesRender (b : RipString) : b.render = nodesRender b.nodes := rfl

theorem nodesRender_cons (s : Segment) (rest : List Segment) :
    nodesRender (s :: rest) = s.tp.render ++ nodesRender rest := by
  simp [nodesRender]

theorem nodesRender_append (a b : List Segment) :
    nodesRender (a ++ b) = nodesRender a ++ nodesRender b := by
  simp [nodesRender]

theorem fromFoldGo_render (q : List SegmentType) :
    ∀ idx, nodesRender (fromFoldGo idx q) = qRender q := by
  induction q with
  | nil => intro idx; rfl
  | cons t ts ih =>
    intro idx
    rw [fromFoldGo, nodesRender_cons, qRender_cons, ih]

theorem mem_fromFoldGo {q : List SegmentType} :
    ∀ {idx : Nat} {seg : Segment}, seg ∈ fromFoldGo idx q → seg.tp ∈ q := by
  induction q with
  | nil => intro idx seg h; cases h
  | cons t ts ih =>
    intro idx seg h
    rcases List.mem_cons.mp h with h | h
    · subst h
      exact List.mem_cons_self _ _
    · exact List.mem_cons_of_mem _ (ih h)

theorem fromString_nodes (gb : List Char → List (List Char)) (s : List Char) :
    (RipString.fromString gb s).nodes
      = if (fromFoldGo 0 (splitterSegs gb s)).isEmpty then [segDefault]
        else fromFoldGo 0 (splitterSegs gb s) := rfl

/-! ### Claim theorems: concrete divergences and simple claims -/

/-- C1 — the claim says `edit(start..end, t)` with a non-empty range and
non-empty `t` replaces the range.  In the source the whole replace body of
`RipString::edit` is commented out, so such an edit does nothing: on the
buffer `"ab"` (built by inserting), `edit(0..1, "x")` leaves `"ab"`, while the
claim (and the repo's own `edit_test`) expects `"xb"`. -/
theorem c1_replace_does_nothing :
    ((RipString.new.edit gbChar 0 0 ['a', 'b']).bind
        (fun b => b.edit gbChar 0 1 ['x'])).map RipString.render = some ['a', 'b']
    ∧ (['a', 'b'] : List Char) ≠ ['x'] ++ ['b'] :=
  ⟨by decide, by decide⟩

/-- C2 counterexample — inserting at logical position 1 of the buffer `"ab"`
(the position `len - 1` inside its single segment) appends after the segment:
the result is `"abx"`, not the claimed `s[0..1] ++ "x" ++ s[1..] = "axb"`. -/
theorem c2_insert_counterexample :
    ((RipString.new.edit gbChar 0 0 ['a', 'b']).bind
        (fun b => b.edit gbChar 1 1 ['x'])).map RipString.render = some ['a', 'b', 'x']
    ∧ (['a', 'b', 'x'] : List Char) ≠ ['a'] ++ ['x'] ++ ['b'] :=
  ⟨by decide, by decide⟩

/-- C5 — `impl From<String> for RipString` bumps the running index by the
segment's own length *before* building the segment, so `From("a")` yields a
single segment with index 1 where the invariant demands index 0. -/
theorem c5_from_index_bug :
    (RipString.fromString gbChar ['a']).nodes = [⟨1, .ascii ['a']⟩] ∧ (1 : Nat) ≠ 0 :=
  ⟨by rfl, by decide⟩

/-- C6 — because of the `From<String>` index slip, the buffer built from `"a"`
has logical length 1, yet the in-bounds edit `edit(0..0, "x")` panics (the
binary search in `find_segment` finds no segment containing index 0). -/
theorem c6_in_bounds_edit_panics :
    (RipString.fromString gbChar ['a']).totalLen = 1 ∧
    (RipString.fromString gbChar ['a']).edit gbChar 0 0 ['x'] = none :=
  ⟨by decide, by rfl⟩

/-- C7 — after building `"a😈b😈"` (four segments) and cutting `0..4`, the
multi-segment cut stores the *pre-filter* index 3 in `last_edit` while the
segment vector shrinks to 2 entries: `last_edit` is out of bounds. -/
theorem c7_last_edit_out_of_bounds :
    ((RipString.new.edit gbChar 0 0 ['a', Char.ofNat 128520, 'b', Char.ofNat 128520]).bind
        (fun b => b.edit gbChar 0 4 [])).map
      (fun b => (b.last_edit, b.nodes.length)) = some (3, 2) ∧ ¬(3 < 2) :=
  ⟨by decide, by decide⟩

/-- C8 counterexample — cutting `0..1` from `"a😈"` truncates the first
segment to length 0 and leaves it in the buffer: the buffer renders the
non-empty `"😈"` but stores a zero-length segment (lengths `[0, 1]`). -/
theorem c8_counterexample :
    ((RipString.new.edit gbChar 0 0 ['a', Char.ofNat 128520]).bind
        (fun b => b.edit gbChar 0 1 [])).map
      (fun b => (b.render, b.nodes.map (fun s => s.tp.len)))
      = some ([Char.ofNat 128520], [0, 1])
    ∧ ([Char.ofNat 128520] : List Char) ≠ [] :=
  ⟨by decide, by decide⟩

/-- C8 amended — immediately after construction the property does hold: a
buffer built by `new()` is the singleton empty Ascii segment, and a buffer
built from a string consists solely of non-empty runs (or the singleton
default when the splitter emits nothing). -/
theorem c8_construction_no_empty_segments :
    RipString.new.nodes = [segDefault] ∧
    ∀ (gb : List Char → List (List Char)) (s : List Char),
      (RipString.fromString gb s).nodes = [segDefault] ∨
        ∀ seg ∈ (RipString.fromString gb s).nodes, 0 < seg.tp.len := by
  refine ⟨rfl, ?_⟩
  intro gb s
  rcases hsegs : splitterSegs gb s with _ | ⟨t, ts⟩
  · left
    rw [fromString_nodes, hsegs]
    rfl
  · right
    intro seg hseg
    rw [fromString_nodes, hsegs] at hseg
    have hne : ¬(fromFoldGo 0 (t :: ts)).isEmpty = true := by
      simp [fromFoldGo]
    rw [if_neg hne] at hseg
    have htp : seg.tp ∈ t :: ts := mem_fromFoldGo hseg
    rw [← hsegs] at htp
    exact (splitterSegs_good gb s seg.tp htp).1

/-- C10 — `RipString::from(String::new())` and `RipString::new()` produce the
same state: one empty Ascii segment with index 0 and `last_edit = 0`. -/
theorem c10_from_empty_eq_new :
    ∀ gb : List Char → List (List Char), RipString.fromString gb [] = RipString.new :=
  fun _ => rfl

/-- C4 — round-trip: building a buffer from any string and rendering it gives
the string back, for any grapheme iterator satisfying the consumed contract. -/
theorem c4_roundtrip (gb : List Char → List (List Char)) (hgb : GbContract gb)
    (s : List Char) : (RipString.fromString gb s).render = s := by
  have hc := splitterSegs_content gb hgb s
  rw [render_eq_nodesRender, fromString_nodes]
  rcases hsegs : splitterSegs gb s with _ | ⟨t, ts⟩
  · rw [hsegs] at hc
    simp [qRender] at hc
    subst hc
    rfl
  · rw [hsegs] at hc
    have hne : ¬(fromFoldGo 0 (t :: ts)).isEmpty = true := by
      simp [fromFoldGo]
    rw [if_neg hne, fromFoldGo_render]
    exact hc

/-- C4 witness. -/
theorem c4_roundtrip_witness :
    (RipString.fromString gbChar ['a', 'b']).render = ['a', 'b'] :=
  c4_roundtrip gbChar gbChar_contract ['a', 'b']

/-- C9 — `find_segment` only ever returns a segment whose `ord` is `Equal`
for the queried index, so the segment's base index is at most the index: the
`index - self.index` / `range.start - self.index` subtractions inside
`Segment::insert`, `Segment::cut` and `Segment::replace` never underflow
(the second cut call of a multi-segment cut subtracts the segment's own index
from itself and from `range.end`, covered by the same bound at `range.end`). -/
theorem c9_no_underflow (b : RipString) (i j : Nat) (h : b.find_segment i = some j) :
    ∃ seg, b.nodes.get? j = some seg ∧ seg.index ≤ i ∧ i ≤ seg.len + seg.index :=
  find_segment_base_le b i j h

/-- C9 witness. -/
theorem c9_no_underflow_witness :
    ∃ seg, RipString.new.nodes.get? 0 = some seg ∧ seg.index ≤ 0 ∧ 0 ≤ seg.len + seg.index :=
  c9_no_underflow RipString.new 0 0 (by decide)

/-! ### Content of a segment-level insert -/

def ovRender : Option (List Segment) → List Char
  | none => []
  | some l => nodesRender l

theorem nodesRender_eq (l : List Segment) : nodesRender l = (nodesElems l).flatten := by
  induction l with
  | nil => rfl
  | cons s rest ih =>
    rw [nodesRender_cons, nodesElems_cons, List.flatten_append, ih, SegmentType.render_eq]

theorem tryMergeQ_render (tp : SegmentType) (q : List SegmentType) :
    ((Segment.tryMergeQ tp q).1).render ++ qRender (Segment.tryMergeQ tp q).2
      = tp.render ++ qRender q := by
  have h := congrArg List.flatten (tryMergeQ_elems tp q)
  simpa [List.flatten_append, ← SegmentType.render_eq, ← qRender_eq] using h

theorem ovRender_filterMap (q : List SegmentType) :
    nodesRender ((q.filter (fun t => !t.isEmpty)).map (fun t => (⟨0, t⟩ : Segment)))
      = qRender q := by
  have h1 : nodesRender ((q.filter (fun t => !t.isEmpty)).map (fun t => (⟨0, t⟩ : Segment)))
      = qRender (q.filter (fun t => !t.isEmpty)) := by
    simp [nodesRender, qRender, List.map_map]
    rfl
  rw [h1, qRender_eq, qElems_filter, ← qRender_eq]

theorem insertStep_content (seg : Segment) (idx : Nat) (q0 : List SegmentType)
    (hq : q0 ≠ []) (hle : idx ≤ seg.tp.len)
    (hside : seg.tp.len = 0 ∨ idx ≠ seg.tp.len - 1) :
    ((seg.insertStep idx q0).1).render ++ qRender (seg.insertStep idx q0).2
      = (seg.tp.elems.take idx).flatten ++ qRender q0
        ++ (seg.tp.elems.drop idx).flatten := by
  unfold Segment.insertStep
  by_cases h0 : seg.tp.len = 0
  · rw [if_pos h0]
    have hel : seg.tp.elems = [] := by
      rw [SegmentType.len_eq] at h0
      exact List.length_eq_zero.mp h0
    rcases q0 with _ | ⟨v, rest⟩
    · cases hq rfl
    · simp [hel, qRender_cons]
  · rw [if_neg h0]
    have hside' : idx ≠ seg.tp.len - 1 := by
      rcases hside with h | h
      · exact absurd h h0
      · exact h
    rw [if_neg hside']
    by_cases hz : idx = 0
    · rw [if_pos hz]
      rcases q0 with _ | ⟨first, rest⟩
      · cases hq rfl
      · subst hz
        rw [tryMergeQ_render first (rest ++ [seg.tp])]
        rw [qRender_append, qRender_cons, qRender_cons]
        simp [qRender, SegmentType.render_eq, List.append_assoc]
    · rw [if_neg hz]
      rw [tryMergeQ_render]
      have h1 : ((seg.tp.split idx).1).render = (seg.tp.elems.take idx).flatten := by
        rw [SegmentType.render_eq, SegmentType.split_fst_elems]
      have h2 : ((seg.tp.split idx).2).render = (seg.tp.elems.drop idx).flatten := by
        rw [SegmentType.render_eq, SegmentType.split_snd_elems]
      rw [qRender_append, h1]
      simp [qRender_cons, qRender, h2, List.append_assoc]

theorem segment_insert_content (gb : List Char → List (List Char)) (hgb : GbContract gb)
    (seg : Segment) (i : Nat) (t : List Char) (ht : t ≠ [])
    (hle : i - seg.index ≤ seg.tp.len)
    (hside : seg.tp.len = 0 ∨ i - seg.index ≠ seg.tp.len - 1) :
    ((seg.insert gb i t).1).tp.render ++ ovRender (seg.insert gb i t).2
      = (seg.tp.elems.take (i - seg.index)).flatten ++ t
        ++ (seg.tp.elems.drop (i - seg.index)).flatten := by
  have hq0 : splitterSegs gb t ≠ [] := splitterSegs_ne_nil gb hgb ht
  have hqr : qRender (splitterSegs gb t) = t := splitterSegs_content gb hgb t
  have hstep := insertStep_content seg (i - seg.index) (splitterSegs gb t) hq0 hle hside
  rw [hqr] at hstep
  unfold Segment.insert
  rcases hst : seg.insertStep (i - seg.index) (splitterSegs gb t) with ⟨tp1, q2⟩
  rw [hst] at hstep
  simp only [hst]
  by_cases hq2 : q2.isEmpty
  · rw [if_pos hq2]
    have : q2 = [] := by
      cases q2
      · rfl
      · simp at hq2
    subst this
    simpa [ovRender, qRender] using hstep
  · rw [if_neg hq2]
    simpa [ovRender, ovRender_filterMap] using hstep

/-! ### Buffer-level decomposition and the insert theorem -/

theorem nodesRender_fixFromAux (l : List Segment) :
    ∀ n : Nat, nodesRender (fixFromAux n l) = nodesRender l := by
  induction l with
  | nil => intro n; rfl
  | cons s rest ih =>
    intro n
    simp only [fixFromAux, nodesRender_cons, ih]

theorem fix_index_from_spec (nodes : List Segment) (le k : Nat) (hk : k < nodes.length) :
    ∃ b', RipString.fix_index_from ⟨nodes, le⟩ k = some b'
      ∧ nodesRender b'.nodes = nodesRender nodes := by
  rcases hg : nodes.get? k with _ | s
  · rw [List.get?_eq_none] at hg
    omega
  · unfold RipString.fix_index_from
    dsimp only
    rw [hg]
    dsimp only
    refine ⟨_, rfl, ?_⟩
    dsimp only
    rw [nodesRender_append, nodesRender_fixFromAux, ← nodesRender_append,
      List.take_append_drop]

theorem set_decomp (l : List Segment) :
    ∀ (j : Nat) (x : Segment), j < l.length →
      l.set j x = l.take j ++ x :: l.drop (j + 1) := by
  induction l with
  | nil => intro j x hj; simp at hj
  | cons a as ih =>
    intro j x hj
    cases j with
    | zero => simp
    | succ n =>
      simp only [List.set_cons_succ, List.take_succ_cons, List.drop_succ_cons,
        List.cons_append]
      rw [ih n x (by simpa using hj)]

theorem nodes_decomp (l : List Segment) (j : Nat) (seg : Segment)
    (hseg : l.get? j = some seg) (hj : j < l.length) :
    l = l.take j ++ seg :: l.drop (j + 1) := by
  have h1 : l[j] = seg := by
    have h2 : l[j]? = some l[j] := List.getElem?_eq_getElem hj
    rw [← List.get?_eq_getElem?, hseg] at h2
    injection h2 with h3
    exact h3.symm
  have h4 : l.drop j = seg :: l.drop (j + 1) := by
    rw [List.drop_eq_getElem_cons hj, h1]
  conv_lhs => rw [← List.take_append_drop j l, h4]

theorem nodesElems_decomp (l : List Segment) (j : Nat) (seg : Segment)
    (hseg : l.get? j = some seg) (hj : j < l.length) :
    nodesElems l = nodesElems (l.take j) ++ (seg.tp.elems ++ nodesElems (l.drop (j + 1))) := by
  conv_lhs => rw [nodes_decomp l j seg hseg hj]
  rw [nodesElems_append, nodesElems_cons]

theorem elems_take_drop_at (l : List Segment) (j : Nat) (seg : Segment)
    (hseg : l.get? j = some seg) (hj : j < l.length) (hidx : IndexesOk 0 l)
    (i : Nat) (hbase : seg.index ≤ i) (hloc : i - seg.index ≤ seg.tp.len) :
    (nodesElems l).take i = nodesElems (l.take j) ++ seg.tp.elems.take (i - seg.index)
    ∧ (nodesElems l).drop i
        = seg.tp.elems.drop (i - seg.index) ++ nodesElems (l.drop (j + 1)) := by
  have hdec := nodesElems_decomp l j seg hseg hj
  have hXlen : (nodesElems (l.take j)).length = seg.index := by
    rw [nodesElems_length]
    have := indexesOk_get l 0 hidx j seg hseg
    omega
  have hElen : seg.tp.elems.length = seg.tp.len := (SegmentType.len_eq seg.tp).symm
  obtain ⟨m, hm⟩ : ∃ m, i = seg.index + m := ⟨i - seg.index, by omega⟩
  subst hm
  have hms : seg.index + m - seg.index = m := by omega
  rw [hms] at hloc ⊢
  constructor
  · rw [hdec, show seg.index + m = (nodesElems (l.take j)).length + m by omega,
      List.take_append, List.take_append_of_le_length (by omega)]
  · rw [hdec, show seg.index + m = (nodesElems (l.take j)).length + m by omega,
      List.drop_append, List.drop_append_of_le_length (by omega)]

theorem splice_eq (l : List Segment) (j : Nat) (new : List Segment) (_hj : j < l.length) :
    (if j = l.length - 1 then l ++ new else l.take (j + 1) ++ new ++ l.drop (j + 1))
      = l.take (j + 1) ++ new ++ l.drop (j + 1) := by
  by_cases h : j = l.length - 1
  · rw [if_pos h, List.take_of_length_le (by omega), List.drop_eq_nil_of_le (by omega)]
    simp
  · rw [if_neg h]

/-- C2 amended — inserting `t` at logical index `i` yields
`s[0..i] ++ t ++ s[i..]` provided the local offset of `i` in the segment that
`find_segment` locates is not `len - 1` of a non-empty segment (when it is,
`Segment::insert` appends after the segment instead). -/
theorem c2_insert_amended (gb : List Char → List (List Char)) (hgb : GbContract gb)
    (b : RipString) (hwf : Wf b) (i : Nat) (t : List Char) (ht : t ≠ [])
    (j : Nat) (hj : b.find_segment i = some j) (seg : Segment)
    (hseg : b.nodes.get? j = some seg)
    (hside : seg.tp.len = 0 ∨ i - seg.index ≠ seg.tp.len - 1) :
    ∃ b', b.edit gb i i t = some b'
      ∧ b'.render = ((bufElems b).take i).flatten ++ t ++ ((bufElems b).drop i).flatten := by
  obtain ⟨seg2, hseg2, hord⟩ := find_segment_ord b i j hj
  rw [hseg] at hseg2
  injection hseg2 with he
  subst he
  obtain ⟨hbase, hiend⟩ := (ord_eq_iff seg i).1 hord
  have hlenrfl : Segment.len seg = seg.tp.len := rfl
  have hlocal : i - seg.index ≤ seg.tp.len := by omega
  have hjlen : j < b.nodes.length := by
    by_contra hx
    rw [List.get?_eq_none.mpr (by omega)] at hseg
    cases hseg
  have hne_t : ¬(t.isEmpty = true) := by simpa [List.isEmpty_iff] using ht
  have hins := segment_insert_content gb hgb seg i t ht hlocal hside
  rcases hinsv : seg.insert gb i t with ⟨r1, ov⟩
  rw [hinsv] at hins
  dsimp only at hins
  -- decompositions of the original buffer
  obtain ⟨htake, hdrop⟩ := elems_take_drop_at b.nodes j seg hseg hjlen hwf.2.1 i hbase hlocal
  have hset := set_decomp b.nodes j r1 hjlen
  have hsetlen : (b.nodes.set j r1).length = b.nodes.length := by simp
  have hA : (b.nodes.set j r1).take (j + 1) = b.nodes.take j ++ [r1] := by
    rw [hset]
    have hAl : (b.nodes.take j).length = j := List.length_take_of_le (by omega)
    rw [show j + 1 = (b.nodes.take j).length + 1 by omega]
    rw [List.take_append]
    simp
  have hD : (b.nodes.set j r1).drop (j + 1) = b.nodes.drop (j + 1) := by
    rw [hset]
    have hAl : (b.nodes.take j).length = j := List.length_take_of_le (by omega)
    rw [show j + 1 = (b.nodes.take j).length + 1 by omega]
    rw [List.drop_append]
    simp
  -- compute the edit
  cases ov with
  | none =>
    obtain ⟨b', hfix, hrend⟩ := fix_index_from_spec (b.nodes.set j r1) j j (by omega)
    refine ⟨b', ?_, ?_⟩
    · unfold RipString.edit
      rw [if_pos (Nat.sub_self i), if_neg hne_t, hj]
      dsimp only
      rw [hseg]
      dsimp only
      rw [hinsv]
      dsimp only
      exact hfix
    · rw [render_eq_nodesRender, hrend, hset, nodesRender_append, nodesRender_cons]
      simp only [ovRender, List.append_nil] at hins
      rw [hins]
      rw [show (bufElems b) = nodesElems b.nodes from rfl, htake, hdrop]
      rw [nodesRender_eq, nodesRender_eq]
      simp [List.flatten_append, List.append_assoc]
  | some newNodes =>
    have hnodes2 : (if j = (b.nodes.set j r1).length - 1 then b.nodes.set j r1 ++ newNodes
        else (b.nodes.set j r1).take (j + 1) ++ newNodes ++ (b.nodes.set j r1).drop (j + 1))
        = b.nodes.take j ++ [r1] ++ newNodes ++ b.nodes.drop (j + 1) := by
      rw [splice_eq _ j newNodes (by omega), hA, hD]
    obtain ⟨b', hfix, hrend⟩ := fix_index_from_spec
      (b.nodes.take j ++ [r1] ++ newNodes ++ b.nodes.drop (j + 1)) j j (by
        have hAl : (b.nodes.take j).length = j := List.length_take_of_le (by omega)
        simp [hAl])
    refine ⟨b', ?_, ?_⟩
    · unfold RipString.edit
      rw [if_pos (Nat.sub_self i), if_neg hne_t, hj]
      dsimp only
      rw [hseg]
      dsimp only
      rw [hinsv]
      dsimp only
      rw [hnodes2]
      exact hfix
    · rw [render_eq_nodesRender, hrend]
      rw [nodesRender_append, nodesRender_append, nodesRender_append]
      have h1 : nodesRender [r1] = r1.tp.render := by simp [nodesRender]
      rw [h1]
      simp only [ovRender] at hins
      rw [show (bufElems b) = nodesElems b.nodes from rfl, htake, hdrop]
      rw [nodesRender_eq (b.nodes.take j), nodesRender_eq (b.nodes.drop (j + 1))]
      simp only [List.flatten_append]
      rw [List.append_assoc, List.append_assoc]
      rw [show r1.tp.render ++ (nodesRender newNodes
          ++ (nodesElems (b.nodes.drop (j + 1))).flatten)
        = (r1.tp.render ++ nodesRender newNodes)
          ++ (nodesElems (b.nodes.drop (j + 1))).flatten by rw [List.append_assoc]]
      rw [hins]
      simp [List.append_assoc]

/-- C2 amended witness: inserting `"x"` at position 1 of the buffer `"abc"`
(a single segment of length 3, local offset 1 ≠ 2). -/
theorem c2_insert_amended_witness :
    ∃ b', (RipString.mk [⟨0, .ascii ['a', 'b', 'c']⟩] 0).edit gbChar 1 1 ['x'] = some b'
      ∧ b'.render = ((bufElems (RipString.mk [⟨0, .ascii ['a', 'b', 'c']⟩] 0)).take 1).flatten
          ++ ['x'] ++ ((bufElems (RipString.mk [⟨0, .ascii ['a', 'b', 'c']⟩] 0)).drop 1).flatten :=
  c2_insert_amended gbChar gbChar_contract
    (RipString.mk [⟨0, .ascii ['a', 'b', 'c']⟩] 0)
    ⟨by decide, ⟨rfl, trivial⟩, by decide⟩
    1 ['x'] (by simp) 0 (by decide) ⟨0, .ascii ['a', 'b', 'c']⟩ rfl (Or.inr (by decide))

/-! ### Content of segment-level cuts -/

theorem tryMerge_parts (tp : SegmentType) (x y : Nat)
    (hsize : ¬ MAX_BLOCK_SIZE ≤ ((tp.split x).1).len + (((tp.split x).2.split y).2).len) :
    ((tp.split x).1.tryMerge (((tp.split x).2.split y).2)).2 = none
    ∧ (((tp.split x).1.tryMerge (((tp.split x).2.split y).2)).1).elems
        = tp.elems.take x ++ (tp.elems.drop x).drop y := by
  cases tp <;>
  · dsimp only [SegmentType.split] at hsize ⊢
    unfold SegmentType.tryMerge
    rw [if_neg hsize]
    simp [SegmentType.elems, List.map_take, List.map_drop]

theorem cut_len_fst (tp : SegmentType) (x : Nat) :
    ((tp.split x).1).len = min x tp.len := by
  cases tp <;> simp [SegmentType.split, SegmentType.len]

theorem cut_len_snd (tp : SegmentType) (x : Nat) :
    ((tp.split x).2).len = tp.len - x := by
  cases tp <;> simp [SegmentType.split, SegmentType.len]

/-- `Segment::cut` when the whole range lies inside the segment: the range is
removed in place (the retained prefix and suffix always re-merge because the
segment respects `MAX_BLOCK_SIZE`), and no sibling is returned. -/
theorem cut_within (seg : Segment) (rstart rend : Nat)
    (h1 : seg.index ≤ rstart) (h2 : rstart < rend) (h3 : rend ≤ seg.tp.len + seg.index)
    (hmax : seg.tp.len ≤ MAX_BLOCK_SIZE) :
    (seg.cut rstart rend).2 = none ∧ ((seg.cut rstart rend).1).index = seg.index ∧
    ((seg.cut rstart rend).1).tp.elems
      = seg.tp.elems.take (rstart - seg.index) ++ seg.tp.elems.drop (rend - seg.index) := by
  have hElen : seg.tp.elems.length = seg.tp.len := (SegmentType.len_eq seg.tp).symm
  have hsl : rstart - seg.index < seg.tp.len := by omega
  unfold Segment.cut
  rw [if_neg (by omega)]
  by_cases he : seg.tp.len ≤ rend - seg.index
  · rw [if_pos he]
    refine ⟨rfl, rfl, ?_⟩
    rw [SegmentType.split_fst_elems, List.drop_eq_nil_of_le (by omega)]
    simp
  · rw [if_neg he]
    have hkl : ((seg.tp.split (rstart - seg.index)).1).len = rstart - seg.index := by
      rw [cut_len_fst]; omega
    have htl : ((((seg.tp.split (rstart - seg.index)).2).split
        ((rend - seg.index) - (rstart - seg.index))).2).len
        = seg.tp.len - (rend - seg.index) := by
      rw [cut_len_snd, cut_len_snd]; omega
    have hsize : ¬ MAX_BLOCK_SIZE ≤ ((seg.tp.split (rstart - seg.index)).1).len
        + ((((seg.tp.split (rstart - seg.index)).2).split
            ((rend - seg.index) - (rstart - seg.index))).2).len := by
      rw [hkl, htl]; simp only [MAX_BLOCK_SIZE] at *; omega
    have hcond : ((((seg.tp.split (rstart - seg.index)).2).split
          ((rend - seg.index) - (rstart - seg.index))).2).len < MIN_BLOCK_SIZE
        ∨ ((seg.tp.split (rstart - seg.index)).1).len < MIN_BLOCK_SIZE := by
      rw [hkl, htl]
      simp only [MIN_BLOCK_SIZE, MAX_BLOCK_SIZE] at *
      omega
    rw [if_pos hcond]
    obtain ⟨hm2, hm1⟩ := tryMerge_parts seg.tp (rstart - seg.index)
      ((rend - seg.index) - (rstart - seg.index)) hsize
    rcases hmv : (seg.tp.split (rstart - seg.index)).1.tryMerge
        ((((seg.tp.split (rstart - seg.index)).2).split
          ((rend - seg.index) - (rstart - seg.index))).2) with ⟨m, o⟩
    rw [hmv] at hm2 hm1
    dsimp only at hm2 hm1
    subst hm2
    refine ⟨rfl, rfl, ?_⟩
    dsimp only
    rw [hm1, List.drop_drop]
    congr 2
    omega

/-- `Segment::cut` on the first touched segment of a multi-segment cut: the
range starts inside (or at the very end of) the segment and extends past it,
so the segment is truncated to the prefix before `range.start`. -/
theorem cut_first (seg : Segment) (rstart rend : Nat)
    (_h1 : seg.index ≤ rstart) (_h2 : rstart ≤ seg.tp.len + seg.index)
    (h3 : seg.tp.len + seg.index ≤ rend) :
    ((seg.cut rstart rend).1).tp.elems = seg.tp.elems.take (rstart - seg.index)
    ∧ ((seg.cut rstart rend).1).index = seg.index
    ∧ (seg.cut rstart rend).2 = none := by
  have hElen : seg.tp.elems.length = seg.tp.len := (SegmentType.len_eq seg.tp).symm
  unfold Segment.cut
  by_cases hs : seg.tp.len ≤ rstart - seg.index
  · rw [if_pos hs]
    refine ⟨?_, rfl, rfl⟩
    rw [List.take_of_length_le (by omega)]
  · rw [if_neg hs, if_pos (by omega)]
    exact ⟨SegmentType.split_fst_elems seg.tp _, rfl, rfl⟩

/-- The second cut of a multi-segment cut (`node.cut(node.index()..range.end)`)
followed by the conditional slot overwrite in `RipString::edit`: whatever ends
up stored at the slot holds exactly the elements after `range.end`. -/
theorem cut_second (seg : Segment) (rend : Nat)
    (h1 : seg.index ≤ rend) (h2 : rend ≤ seg.tp.len + seg.index)
    (hmax : seg.tp.len ≤ MAX_BLOCK_SIZE) :
    (match (seg.cut seg.index rend).2 with
      | none => (seg.cut seg.index rend).1
      | some s => s).tp.elems = seg.tp.elems.drop (rend - seg.index) := by
  have hElen : seg.tp.elems.length = seg.tp.len := (SegmentType.len_eq seg.tp).symm
  have hz : seg.index - seg.index = 0 := by omega
  unfold Segment.cut
  rw [hz]
  by_cases h0 : seg.tp.len ≤ 0
  · rw [if_pos h0]
    dsimp only
    rw [List.drop_eq_nil_of_le (by omega), List.length_eq_zero.mp (by omega : seg.tp.elems.length = 0)]
  · rw [if_neg h0]
    by_cases he : seg.tp.len ≤ rend - seg.index
    · rw [if_pos he]
      dsimp only
      rw [SegmentType.split_fst_elems, List.drop_eq_nil_of_le (by omega)]
      simp
    · rw [if_neg he]
      have hkl : ((seg.tp.split 0).1).len = 0 := by rw [cut_len_fst]; omega
      have hcond : ((((seg.tp.split 0).2).split ((rend - seg.index) - 0)).2).len < MIN_BLOCK_SIZE
          ∨ ((seg.tp.split 0).1).len < MIN_BLOCK_SIZE := by
        right
        rw [hkl]
        simp [MIN_BLOCK_SIZE]
      rw [if_pos hcond]
      by_cases hbig : MAX_BLOCK_SIZE ≤ ((seg.tp.split 0).1).len
          + ((((seg.tp.split 0).2).split ((rend - seg.index) - 0)).2).len
      · -- the suffix alone reaches MAX_BLOCK_SIZE: try_merge refuses, the
        -- suffix comes back as a new segment that replaces the slot
        have htl : ((((seg.tp.split 0).2).split ((rend - seg.index) - 0)).2).len
            = seg.tp.len - (rend - seg.index) := by
          rw [cut_len_snd, cut_len_snd]
          omega
        have hne : ¬((((seg.tp.split 0).2).split ((rend - seg.index) - 0)).2).isEmpty = true := by
          rw [SegmentType.isEmpty_iff, htl]
          rw [hkl, htl] at hbig
          simp only [MAX_BLOCK_SIZE] at hbig hmax
          omega
        unfold SegmentType.tryMerge
        rw [if_pos hbig]
        dsimp only
        rw [if_neg hne]
        dsimp only
        rw [SegmentType.split_snd_elems, SegmentType.split_snd_elems, List.drop_drop]
        congr 1
        omega
      · obtain ⟨hm2, hm1⟩ := tryMerge_parts seg.tp 0 ((rend - seg.index) - 0) hbig
        rcases hmv : (seg.tp.split 0).1.tryMerge
            ((((seg.tp.split 0).2).split ((rend - seg.index) - 0)).2) with ⟨m, o⟩
        rw [hmv] at hm2 hm1
        dsimp only at hm2 hm1
        subst hm2
        dsimp only
        rw [hm1, List.drop_drop]
        simp

theorem keepOuter_go (j1 j2 : Nat) (h : j1 < j2) :
    ∀ (l : List Segment) (n : Nat),
      ((List.enumFrom n l).filter (fun p => decide (p.1 ≤ j1) || decide (j2 ≤ p.1))).map
          Prod.snd
        = (if n ≤ j1 then l.take (j1 + 1 - n) else []) ++ l.drop (j2 - n) := by
  intro l
  induction l with
  | nil =>
    intro n
    simp
  | cons s rest ih =>
    intro n
    rw [List.enumFrom_cons, List.filter_cons]
    by_cases hn1 : n ≤ j1
    · have hc : (decide (n ≤ j1) || decide (j2 ≤ n)) = true := by simp [hn1]
      rw [if_pos hc, List.map_cons, ih (n + 1)]
      rw [if_pos hn1]
      have hd1 : (s :: rest).drop (j2 - n) = rest.drop (j2 - (n + 1)) := by
        rw [show j2 - n = (j2 - (n + 1)) + 1 by omega, List.drop_succ_cons]
      by_cases hn2 : n + 1 ≤ j1
      · rw [if_pos hn2]
        have ht1 : (s :: rest).take (j1 + 1 - n) = s :: rest.take (j1 + 1 - (n + 1)) := by
          rw [show j1 + 1 - n = (j1 + 1 - (n + 1)) + 1 by omega, List.take_succ_cons]
        rw [ht1, hd1]
        simp
      · rw [if_neg hn2]
        have ht1 : (s :: rest).take (j1 + 1 - n) = [s] := by
          rw [show j1 + 1 - n = 1 by omega]
          rfl
        rw [ht1, hd1]
        simp
    · by_cases hn3 : j2 ≤ n
      · have hc : (decide (n ≤ j1) || decide (j2 ≤ n)) = true := by simp [hn3]
        rw [if_pos hc, List.map_cons, ih (n + 1)]
        rw [if_neg hn1, if_neg (by omega : ¬ n + 1 ≤ j1)]
        rw [show j2 - n = 0 by omega, show j2 - (n + 1) = 0 by omega]
        simp
      · have hc : (decide (n ≤ j1) || decide (j2 ≤ n)) = false := by
          simp only [Bool.or_eq_false_iff, decide_eq_false_iff_not]
          exact ⟨hn1, hn3⟩
        rw [if_neg (by simp [hc]), ih (n + 1)]
        rw [if_neg hn1, if_neg (by omega : ¬ n + 1 ≤ j1)]
        have hd1 : (s :: rest).drop (j2 - n) = rest.drop (j2 - (n + 1)) := by
          rw [show j2 - n = (j2 - (n + 1)) + 1 by omega, List.drop_succ_cons]
        rw [hd1]

theorem keepOuter_eq (l : List Segment) (j1 j2 : Nat) (h : j1 < j2) :
    keepOuter j1 j2 l = l.take (j1 + 1) ++ l.drop j2 := by
  unfold keepOuter
  have hgo := keepOuter_go j1 j2 h l 0
  rw [show l.enum = List.enumFrom 0 l from rfl]
  simpa using hgo

theorem find_pair_lt (b : RipString) (hwf : Wf b) (rstart rend : Nat) (hlt : rstart < rend)
    (j1 j2 : Nat) (seg1 seg2 : Segment)
    (hg1 : b.nodes.get? j1 = some seg1) (ho1 : seg1.ord rstart = .eq)
    (hg2 : b.nodes.get? j2 = some seg2) (ho2 : seg2.ord rend = .eq)
    (hne : j2 ≠ j1) : j1 < j2 := by
  by_contra hx
  have hj2j1 : j2 < j1 := by omega
  have hb1 := indexesOk_get b.nodes 0 hwf.2.1 j1 seg1 hg1
  have hb2 := indexesOk_get b.nodes 0 hwf.2.1 j2 seg2 hg2
  have he2 := sumLen_take_succ b.nodes j2 seg2 hg2
  have hmono : sumLen (b.nodes.take (j2 + 1)) ≤ sumLen (b.nodes.take j1) :=
    sumLen_take_mono b.nodes (by omega)
  obtain ⟨hs1, _⟩ := (ord_eq_iff seg1 rstart).1 ho1
  obtain ⟨_, hs2e⟩ := (ord_eq_iff seg2 rend).1 ho2
  have hlen2 : Segment.len seg2 = seg2.tp.len := rfl
  omega

/-- C3 — `edit(start..end, "")` removes exactly the range: the result renders
`s[0..start] ++ s[end..]`, whether the range lies inside one segment or spans
several (left part of the first touched segment and right part of the last
survive; the segments strictly between are removed by the splice). -/
theorem c3_cut (gb : List Char → List (List Char)) (b : RipString) (hwf : Wf b)
    (rstart rend : Nat) (hse : rstart ≤ rend) (hend : rend ≤ b.totalLen) :
    ∃ b', b.edit gb rstart rend [] = some b'
      ∧ b'.render = ((bufElems b).take rstart).flatten
          ++ ((bufElems b).drop rend).flatten := by
  by_cases heq0 : rend - rstart = 0
  · have heq : rstart = rend := by omega
    subst heq
    refine ⟨b, ?_, ?_⟩
    · unfold RipString.edit
      rw [if_pos heq0, if_pos (show (List.isEmpty ([] : List Char)) = true from rfl)]
    · rw [render_eq_nodesRender, nodesRender_eq, ← List.flatten_append,
        List.take_append_drop]
      rfl
  · have hlt : rstart < rend := by omega
    obtain ⟨j1, hj1⟩ := find_segment_success b hwf rstart (by omega)
    obtain ⟨j2, hj2⟩ := find_segment_success b hwf rend hend
    obtain ⟨seg1, hg1, ho1⟩ := find_segment_ord b rstart j1 hj1
    obtain ⟨seg2, hg2, ho2⟩ := find_segment_ord b rend j2 hj2
    obtain ⟨hs1b, hs1e⟩ := (ord_eq_iff seg1 rstart).1 ho1
    obtain ⟨hs2b, hs2e⟩ := (ord_eq_iff seg2 rend).1 ho2
    have hlen1 : Segment.len seg1 = seg1.tp.len := rfl
    have hlen2 : Segment.len seg2 = seg2.tp.len := rfl
    have hj1len : j1 < b.nodes.length := by
      by_contra hx
      rw [List.get?_eq_none.mpr (by omega)] at hg1
      cases hg1
    have hj2len : j2 < b.nodes.length := by
      by_contra hx
      rw [List.get?_eq_none.mpr (by omega)] at hg2
      cases hg2
    have hmax1 : seg1.tp.len ≤ MAX_BLOCK_SIZE := hwf.2.2 seg1 (List.get?_mem hg1)
    have hmax2 : seg2.tp.len ≤ MAX_BLOCK_SIZE := hwf.2.2 seg2 (List.get?_mem hg2)
    by_cases hjj : j2 = j1
    · -- the whole range lies in one segment
      subst hjj
      rw [hg1] at hg2
      injection hg2 with hseg12
      subst hseg12
      obtain ⟨hcut2, hcutidx, hcutel⟩ := cut_within seg1 rstart rend hs1b hlt
        (by omega) hmax1
      rcases hcv : seg1.cut rstart rend with ⟨c, o⟩
      rw [hcv] at hcut2 hcutidx hcutel
      dsimp only at hcut2 hcutidx hcutel
      subst hcut2
      obtain ⟨htakeE, _⟩ := elems_take_drop_at b.nodes j2 seg1 hg1 hj1len hwf.2.1
        rstart hs1b (by omega)
      obtain ⟨_, hdropE⟩ := elems_take_drop_at b.nodes j2 seg1 hg1 hj1len hwf.2.1
        rend hs2b (by omega)
      obtain ⟨b', hfix, hrend⟩ := fix_index_from_spec (b.nodes.set j2 c) j2 j2
        (by simpa using hj1len)
      refine ⟨b', ?_, ?_⟩
      · unfold RipString.edit
        rw [if_neg heq0, if_pos (show (List.isEmpty ([] : List Char)) = true from rfl)]
        rw [hj1, hj2]
        dsimp only
        rw [if_pos rfl, hg1]
        dsimp only
        rw [hcv]
        dsimp only
        exact hfix
      · rw [render_eq_nodesRender, hrend, set_decomp b.nodes j2 c hj1len,
          nodesRender_append, nodesRender_cons]
        rw [show (bufElems b) = nodesElems b.nodes from rfl, htakeE, hdropE]
        rw [SegmentType.render_eq, hcutel]
        rw [nodesRender_eq, nodesRender_eq]
        simp [List.flatten_append, List.append_assoc]
    · -- the range spans several segments
      have hj1j2 : j1 < j2 := find_pair_lt b hwf rstart rend hlt j1 j2 seg1 seg2
        hg1 ho1 hg2 ho2 hjj
      have hb1 := indexesOk_get b.nodes 0 hwf.2.1 j1 seg1 hg1
      have hb2 := indexesOk_get b.nodes 0 hwf.2.1 j2 seg2 hg2
      have he1 := sumLen_take_succ b.nodes j1 seg1 hg1
      have hmono : sumLen (b.nodes.take (j1 + 1)) ≤ sumLen (b.nodes.take j2) :=
        sumLen_take_mono b.nodes (by omega)
      have hpass : seg1.tp.len + seg1.index ≤ rend := by omega
      obtain ⟨hc1el, hc1idx, hc1o⟩ := cut_first seg1 rstart rend hs1b (by omega) hpass
      have hX := cut_second seg2 rend hs2b (by omega) hmax2
      have hg2' : (b.nodes.set j1 (seg1.cut rstart rend).1).get? j2 = some seg2 := by
        rw [List.get?_eq_getElem?, List.getElem?_set_ne (by omega : j1 ≠ j2),
          ← List.get?_eq_getElem?]
        exact hg2
      have hmain : ∀ X : Segment,
          X.tp.elems = seg2.tp.elems.drop (rend - seg2.index) →
          ∃ b', RipString.fix_index_from
              ⟨keepOuter j1 j2 ((b.nodes.set j1 (seg1.cut rstart rend).1).set j2 X), j2⟩ j1
              = some b'
            ∧ b'.render = ((bufElems b).take rstart).flatten
                ++ ((bufElems b).drop rend).flatten := by
        intro X hXel
        have hl2 := set_decomp b.nodes j1 (seg1.cut rstart rend).1 hj1len
        have hl2len : (b.nodes.set j1 (seg1.cut rstart rend).1).length = b.nodes.length := by
          simp
        have hl3 := set_decomp (b.nodes.set j1 (seg1.cut rstart rend).1) j2 X (by omega)
        have hA1len : (b.nodes.take j1).length = j1 := List.length_take_of_le (by omega)
        have hl2split : b.nodes.set j1 (seg1.cut rstart rend).1
            = (b.nodes.take j1 ++ [(seg1.cut rstart rend).1]) ++ b.nodes.drop (j1 + 1) := by
          rw [hl2]
          simp
        have htk2 : ((b.nodes.set j1 (seg1.cut rstart rend).1).set j2 X).take (j1 + 1)
            = b.nodes.take j1 ++ [(seg1.cut rstart rend).1] := by
          rw [hl3]
          rw [List.take_append_of_le_length (by
            rw [List.length_take_of_le (by omega)]
            omega)]
          rw [List.take_take, min_eq_left (by omega), hl2split]
          exact List.take_left' (by simp [hA1len])
        have hdrl2 : (b.nodes.set j1 (seg1.cut rstart rend).1).drop (j2 + 1)
            = b.nodes.drop (j2 + 1) := by
          rw [hl2split]
          have h1 : ((b.nodes.take j1 ++ [(seg1.cut rstart rend).1])
              ++ b.nodes.drop (j1 + 1)).drop (j2 + 1)
              = (b.nodes.drop (j1 + 1)).drop (j2 - j1) := by
            rw [show j2 + 1 = (b.nodes.take j1 ++ [(seg1.cut rstart rend).1]).length
                + (j2 - j1) by simp [hA1len]; omega]
            exact List.drop_append _
          rw [h1, List.drop_drop]
          congr 1
          omega
        have hdr2 : ((b.nodes.set j1 (seg1.cut rstart rend).1).set j2 X).drop j2
            = X :: b.nodes.drop (j2 + 1) := by
          rw [hl3]
          rw [List.drop_left' (List.length_take_of_le (by omega)), hdrl2]
        obtain ⟨htakeE, _⟩ := elems_take_drop_at b.nodes j1 seg1 hg1 hj1len hwf.2.1
          rstart hs1b (by omega)
        obtain ⟨_, hdropE⟩ := elems_take_drop_at b.nodes j2 seg2 hg2 hj2len hwf.2.1
          rend hs2b (by omega)
        have hko := keepOuter_eq ((b.nodes.set j1 (seg1.cut rstart rend).1).set j2 X)
          j1 j2 hj1j2
        rw [htk2, hdr2] at hko
        obtain ⟨b', hfix, hrend⟩ := fix_index_from_spec
          (keepOuter j1 j2 ((b.nodes.set j1 (seg1.cut rstart rend).1).set j2 X)) j2 j1
          (by rw [hko]; simp [hA1len])
        refine ⟨b', hfix, ?_⟩
        rw [render_eq_nodesRender, hrend, hko]
        rw [nodesRender_append, nodesRender_append, nodesRender_cons, nodesRender_cons]
        rw [show (bufElems b) = nodesElems b.nodes from rfl, htakeE, hdropE]
        rw [SegmentType.render_eq, hc1el, SegmentType.render_eq, hXel]
        rw [nodesRender_eq (b.nodes.take j1), nodesRender_eq (b.nodes.drop (j2 + 1))]
        simp [List.flatten_append, List.append_assoc, nodesRender]
      rcases hr2 : seg2.cut seg2.index rend with ⟨x1, o2⟩
      rw [hr2] at hX
      cases o2 with
      | none =>
        dsimp only at hX
        obtain ⟨b', hfix, hrend⟩ := hmain x1 hX
        refine ⟨b', ?_, hrend⟩
        unfold RipString.edit
        rw [if_neg heq0, if_pos (show (List.isEmpty ([] : List Char)) = true from rfl)]
        rw [hj1, hj2]
        dsimp only
        rw [if_neg hjj, hg1]
        dsimp only
        rw [hg2']
        dsimp only
        rw [hr2]
        dsimp only
        exact hfix
      | some s =>
        dsimp only at hX
        obtain ⟨b', hfix, hrend⟩ := hmain s hX
        refine ⟨b', ?_, hrend⟩
        unfold RipString.edit
        rw [if_neg heq0, if_pos (show (List.isEmpty ([] : List Char)) = true from rfl)]
        rw [hj1, hj2]
        dsimp only
        rw [if_neg hjj, hg1]
        dsimp only
        rw [hg2']
        dsimp only
        rw [hr2]
        dsimp only
        exact hfix

/-- C3 witness: cutting `1..2` from the buffer `"abc"`. -/
theorem c3_cut_witness :
    ∃ b', (RipString.mk [⟨0, .ascii ['a', 'b', 'c']⟩] 0).edit gbChar 1 2 [] = some b'
      ∧ b'.render = ((bufElems (RipString.mk [⟨0, .ascii ['a', 'b', 'c']⟩] 0)).take 1).flatten
          ++ ((bufElems (RipString.mk [⟨0, .ascii ['a', 'b', 'c']⟩] 0)).drop 2).flatten :=
  c3_cut gbChar (RipString.mk [⟨0, .ascii ['a', 'b', 'c']⟩] 0)
    ⟨by decide, ⟨rfl, trivial⟩, by decide⟩ 1 2 (by decide) (by decide)
